import Mathlib

/-!
Verification of the string, memory, number-parsing, arithmetic-dispatch and
stack-manipulation subsystems of the annotated Lua 5.3.4 core
(`lobject.c`, `lmem.c`, `lapi.c`).

The C code is shallowly embedded: machine integers become `Nat`/`Int` with
explicit reductions modulo `2^32` (C `unsigned int`) and `2^64`
(`lua_Integer`/`lua_Unsigned`, the default 64-bit configuration); C strings
become lists of bytes (`List Nat`, the terminating NUL left implicit); the
string table becomes a list of bucket chains; fallible code returns
`Option`/`Except`.
-/

namespace LuaCore

/-- The `2^32`, the modulus of C `unsigned int` arithmetic. -/
def U32 : Nat := 4294967296

/-- The `2^64`, the modulus of `lua_Unsigned` arithmetic (64-bit configuration). -/
def U64 : Nat := 18446744073709551616

/-- The `LUA_MAXINTEGER` = `2^63 - 1` for the 64-bit `lua_Integer`. -/
def LUA_MAXINTEGER : Nat := 9223372036854775807

/-- The `l_castS2U`: reinterpret a signed `lua_Integer` as `lua_Unsigned`
(two's complement), as a natural number below `2^64`. -/
def l_castS2U (v : Int) : Nat := (v % (U64 : Int)).toNat

/-- The `l_castU2S`: reinterpret a `lua_Unsigned` (reduced mod `2^64`) as a
signed `lua_Integer` (two's complement). -/
def l_castU2S (u : Nat) : Int :=
  if u % U64 < 2 ^ 63 then (u % U64 : Int) else (u % U64 : Int) - (U64 : Int)

/- ## `lctype.h` character classification (standard C locale) -/

/-- The `lisspace`: C `isspace` on a byte (space, \t, \n, \v, \f, \r). -/
def lisspace (c : Nat) : Bool :=
  c == 32 || c == 9 || c == 10 || c == 11 || c == 12 || c == 13

/-- The `lisdigit`: C `isdigit` on a byte. -/
def lisdigit (c : Nat) : Bool := 48 ≤ c && c ≤ 57

/-- The `lisxdigit`: C `isxdigit` on a byte. -/
def lisxdigit (c : Nat) : Bool :=
  lisdigit c || (65 ≤ c && c ≤ 70) || (97 ≤ c && c ≤ 102)

/-- The `ltolower`: C `tolower` on a byte. -/
def ltolower (c : Nat) : Nat := if 65 ≤ c && c ≤ 90 then c + 32 else c

/-- The `luaO_hexavalue` (`lobject.c`): value of a hex digit byte. -/
def luaO_hexavalue (c : Nat) : Nat :=
  if lisdigit c then c - 48 else (ltolower c - 97) + 10

/- ## `luaS_hash` (`lobject.c`)

`unsigned int` arithmetic is modelled as `Nat` reduced mod `2^32`; `h<<5`,
`h>>2` and `^` are the C shifts and xor on 32-bit words. -/

/-- The `LUAI_HASHLIMIT` (`lobject.c`): `step = (l >> LUAI_HASHLIMIT) + 1`. -/
def LUAI_HASHLIMIT : Nat := 5

/-- One iteration of the `luaS_hash` loop body:
`h ^= ((h<<5) + (h>>2) + cast_byte(str[l-1]))` on 32-bit words. -/
def hashStep (h : Nat) (b : Nat) : Nat :=
  h ^^^ (((h * 32) % U32 + h / 4 + b % 256) % U32)

/-- The `luaS_hash` loop: `for (; l >= step; l -= step) h ^= ...str[l-1]...`.
Structural recursion on a fuel argument; since `step ≥ 1`, `l` iterations of
fuel always suffice, so `hashLoop` below is exactly the C loop. -/
def hashLoopAux (str : List Nat) (step : Nat) : Nat → Nat → Nat → Nat
  | 0, h, _ => h
  | fuel + 1, h, l =>
    if 0 < step ∧ step ≤ l then
      hashLoopAux str step fuel (hashStep h (str.getD (l - 1) 0)) (l - step)
    else h

/-- The `luaS_hash` loop, entered with counter `l`. -/
def hashLoop (str : List Nat) (step : Nat) (h : Nat) (l : Nat) : Nat :=
  hashLoopAux str step l h l

/-- The `luaS_hash` (`lobject.c`): seed-xor-length initial value, then the strided
loop with `step = (l >> LUAI_HASHLIMIT) + 1`. -/
def luaS_hash (str : List Nat) (seed : Nat) : Nat :=
  let l := str.length
  let h := (seed % U32) ^^^ (l % U32)
  let step := (l >>> LUAI_HASHLIMIT) + 1
  hashLoop str step h l

/-- Reference fold in which every byte of the string participates, mixing
bytes from the last to the first with the `luaS_hash` mixing step. -/
def hashAllBytes (str : List Nat) (seed : Nat) : Nat :=
  str.reverse.foldl hashStep ((seed % U32) ^^^ (str.length % U32))

/- ## `lmem.c`: vector growth and the allocation trampoline -/

/-- The `MINSIZEARRAY` (`lmem.c`): minimum capacity when doubling. -/
def MINSIZEARRAY : Nat := 4

/-- The `luaM_growaux_` (`lmem.c`), capacity policy. C `int` sizes are
non-negative in every call, so they are modelled as `Nat` (making `limit/2`
the same truncating division as C). The runtime error raised through
`luaG_runerror(L, "too many %s (limit is %d)", what, limit)` becomes
`Except.error` carrying the formatted message. -/
def luaM_growaux_ (size : Nat) (limit : Nat) (what : String) : Except String Nat :=
  if size ≥ limit / 2 then
    if size ≥ limit then
      .error ("too many " ++ what ++ " (limit is " ++ toString limit ++ ")")
    else .ok limit
  else
    .ok (if size * 2 < MINSIZEARRAY then MINSIZEARRAY else size * 2)

/-- The memory-manager state visible to `luaM_realloc_`: whether the state is
fully built (`g->version`), the GC debt, the outcomes of the future calls to
the external allocator (`true` = it returns a block), and a counter of
emergency GC cycles. -/
structure MemG where
  version : Bool
  gcdebt : Int
  allocOk : List Bool
  gcCount : Nat
  deriving Repr, DecidableEq

/-- The external allocator `(*g->frealloc)(g->ud, block, osize, nsize)`,
modelled as an oracle consuming `allocOk`: with `nsize = 0` it frees the block
and returns NULL (per the allocator contract in `lmem.c`); otherwise it
returns a fresh block exactly when the next oracle outcome is `true`. -/
def frealloc (g : MemG) (nsize : Nat) : Option Unit × MemG :=
  ((if nsize = 0 then none
    else if g.allocOk.headD false then some () else none),
   { g with allocOk := g.allocOk.tail })

/-- Modelled from the spec: `luaC_fullgc(L, 1)` (in `lgc.c`, which is not
among the sources) runs an emergency garbage-collection cycle that skips
finalizers. Its effect on the GC debt is abstracted by the parameter `gcEff`;
the model counts completed emergency cycles in `gcCount`. -/
def luaC_fullgc_emergency (gcEff : Int → Int) (g : MemG) : MemG :=
  { g with gcCount := g.gcCount + 1, gcdebt := gcEff g.gcdebt }

/-- The `LUA_ERRMEM` (`lua.h`). -/
def LUA_ERRMEM : Nat := 4

/-- The `luaM_realloc_` (`lmem.c`). `block` says whether the incoming pointer is
non-null; `realosize` is `osize` zeroed for a null block.
`luaD_throw(L, LUA_ERRMEM)` (in `ldo.c`, not among the sources) is modelled
from the spec as the non-local escape: `Except.error` carrying the status code
and the state at the throw. -/
def luaM_realloc_ (gcEff : Int → Int) (g : MemG) (block : Bool)
    (osize nsize : Nat) : Except (Nat × MemG) (Option Unit × MemG) :=
  let realosize : Nat := if block then osize else 0
  let finish : Option Unit → MemG → Except (Nat × MemG) (Option Unit × MemG) :=
    fun nb gf =>
      .ok (nb, { gf with gcdebt := gf.gcdebt + (nsize : Int) - (realosize : Int) })
  let (newblock, g1) := frealloc g nsize
  if newblock = none ∧ 0 < nsize then
    if g1.version then
      let g2 := luaC_fullgc_emergency gcEff g1
      let (nb2, g3) := frealloc g2 nsize
      if nb2 = none then .error (LUA_ERRMEM, g3) else finish nb2 g3
    else .error (LUA_ERRMEM, g1)
  else finish newblock g1

/- ## Tagged values (`lobject.h`)

The vales relevant to `luaO_arith`, `luaO_str2num` and the push/read API:
integers, floats, strings (content only; short/long behave alike for numeric
coercion), booleans, nil, and a representative non-coercible collectable kind
(`table`). `lua_Number` is kept abstract as a type parameter `Num`, since
float arithmetic and `strtod` are platform/libc code outside the sources;
`lua_Integer` is the 64-bit `Int` with explicit wraparound in the operations. -/

inductive TValue (Num : Type) where
  | nil
  | boolVal (b : Bool)
  | integer (i : Int)
  | number (x : Num)
  | str (bytes : List Nat)
  | table (id : Nat)
  deriving DecidableEq, Repr

/-- The platform/libc operations on the abstract float type: the `luaconf.h`
macros `lua_str2number`/`lua_strx2number` (both `strtod` in the default C99
build; the result pairs a value with the number of bytes consumed, 0 meaning
failure), `cast_num`, the `llimits.h` `luai_num*` arithmetic macros, and the
exact float-to-integer conversion used by `luaV_tointeger` (mode
`LUA_FLOORN2I`: succeed only on floats with an exact integral value). -/
structure FloatModel (Num : Type) where
  str2number : List Nat → Num × Nat
  strx2number : List Nat → Num × Nat
  ofInt : Int → Num
  toIntExact : Num → Option Int
  numadd : Num → Num → Num
  numsub : Num → Num → Num
  nummul : Num → Num → Num
  numdiv : Num → Num → Num
  numpow : Num → Num → Num
  numidiv : Num → Num → Num
  nummod : Num → Num → Num
  numunm : Num → Num

/- ## String-to-number conversion (`lobject.c`) -/

/-- The `MAXBY10` (`lobject.c`): the largest integer safely multipliable by 10. -/
def MAXBY10 : Nat := LUA_MAXINTEGER / 10

/-- The `MAXLASTD` (`lobject.c`): last digit of the maximum integer. -/
def MAXLASTD : Nat := LUA_MAXINTEGER % 10

/-- The `isneg` (`lobject.c`): skip a sign, reporting whether it was `-`. -/
def isneg : List Nat → Bool × List Nat
  | 45 :: rest => (true, rest)
  | 43 :: rest => (false, rest)
  | s => (false, s)

/-- The decimal loop of `l_str2int` (`lobject.c`): accumulate `a = a*10 + d`
with the exact early-overflow guard, tracking the `empty` flag. The guard
keeps `a ≤ LUA_MAXINTEGER + neg < 2^64`, so the `lua_Unsigned` accumulator
never wraps and plain `Nat` arithmetic is faithful. `neg` is the C `int`
0 or 1. -/
def decLoop (neg : Nat) : Nat → Bool → List Nat → Option (Nat × List Nat × Bool)
  | a, empty, [] => some (a, [], empty)
  | a, empty, c :: rest =>
    if lisdigit c then
      if MAXBY10 ≤ a ∧ (MAXBY10 < a ∨ MAXLASTD + neg < c - 48) then none
      else decLoop neg (a * 10 + (c - 48)) false rest
    else some (a, c :: rest, empty)

/-- The hexadecimal loop of `l_str2int` (`lobject.c`): `a = a * 16 +
luaO_hexavalue(*s)` on the wrapping `lua_Unsigned` accumulator, with no
overflow check. Returns the accumulator, the rest of the string, and the
`empty` flag. -/
def hexLoop (r : List Nat) : Nat × List Nat × Bool :=
  ((r.takeWhile lisxdigit).foldl (fun a c => (a * 16 + luaO_hexavalue c) % U64) 0,
   r.dropWhile lisxdigit, (r.takeWhile lisxdigit).isEmpty)

/-- The `s[0] == '0' && (s[1] == 'x' || s[1] == 'X')` test of `l_str2int`,
returning the part after the `0x` prefix when it matches. -/
def hexMark : List Nat → Option (List Nat)
  | 48 :: 120 :: r => some r
  | 48 :: 88 :: r => some r
  | _ => none

/-- The `l_str2int` (`lobject.c`). On success the C function returns the pointer
to the terminating NUL (skipping trailing spaces), so the consumed length is
the whole string; the model returns just the value. -/
def l_str2int (s0 : List Nat) : Option Int :=
  let s1 := s0.dropWhile lisspace
  let p := isneg s1
  let core : Option (Nat × List Nat × Bool) :=
    match hexMark p.2 with
    | some r => some (hexLoop r)
    | none => decLoop (if p.1 then 1 else 0) 0 true p.2
  match core with
  | none => none
  | some (a, rest, empty) =>
    if empty ∨ rest.dropWhile lisspace ≠ [] then none
    else some (l_castU2S (if p.1 then (U64 - a % U64) % U64 else a))

/-- The `l_str2dloc` (`lobject.c`): call `lua_strx2number` (mode `'x'`, byte 120)
or `lua_str2number`, reject if nothing was consumed, then require only
whitespace after the consumed prefix. -/
def l_str2dloc {Num : Type} (fm : FloatModel Num) (s : List Nat) (mode : Nat) :
    Option Num :=
  let rc := if mode = 120 then fm.strx2number s else fm.str2number s
  if rc.2 = 0 then none
  else if (s.drop rc.2).dropWhile lisspace = [] then some rc.1 else none

/-- The radix mark of the configured locale (`lua_getlocaledecpoint`), a
platform knob outside the sources; the default C locale uses `'.'`. -/
def localeDecPoint : Nat := 46

/-- The `L_MAXLENNUM` (`lobject.c`): buffer bound for the locale retry. -/
def L_MAXLENNUM : Nat := 200

/-- The `l_str2d` (`lobject.c`): detect the mode byte with `strpbrk(s, ".xXnN")`,
reject `inf`/`nan` (mode `'n'`), try `l_str2dloc`, and on failure retry once
with the first `'.'` replaced by the locale radix mark. -/
def l_str2d {Num : Type} (fm : FloatModel Num) (s : List Nat) : Option Num :=
  let pmode := s.find? (fun c => c == 46 || c == 120 || c == 88 || c == 110 || c == 78)
  let mode := match pmode with
    | some c => ltolower c
    | none => 0
  if mode = 110 then none
  else match l_str2dloc fm s mode with
  | some r => some r
  | none =>
    if L_MAXLENNUM < s.length ∨ ¬ 46 ∈ s then none
    else l_str2dloc fm (s.set (s.indexOf 46) localeDecPoint) mode

/-- The `luaO_str2num` (`lobject.c`): integer conversion first, float fallback;
on success both parsers consume through the terminating NUL, so the returned
size is the string length plus one. -/
def luaO_str2num {Num : Type} (fm : FloatModel Num) (s : List Nat) :
    Option (TValue Num × Nat) :=
  match l_str2int s with
  | some i => some (.integer i, s.length + 1)
  | none =>
    match l_str2d fm s with
    | some n => some (.number n, s.length + 1)
    | none => none

/- ## Specification-side integer-numeral parser

Written from the spec's words ("Numbers are parsed to integer first, falling
back to float on overflow or fractional syntax"; hex digits "accumulated as
a*16 + d with unsigned wraparound"): an integer numeral is optional spaces, an
optional sign, then either `0x`/`0X` with at least one hex digit, or at least
one decimal digit whose value fits the signed range, followed by optional
spaces; the hex value is reduced modulo `2^64`, with no range restriction. -/

/-- Plain (unbounded) value of a decimal digit string. -/
def decValue (ds : List Nat) : Nat := ds.foldl (fun a c => a * 10 + (c - 48)) 0

/-- Plain (unbounded) value of a hex digit string. -/
def hexValue (ds : List Nat) : Nat := ds.foldl (fun a c => a * 16 + luaO_hexavalue c) 0

/-- Sign application on the wrapped unsigned accumulator. -/
def signedOfU64 (neg : Bool) (a : Nat) : Int :=
  l_castU2S (if neg then (U64 - a % U64) % U64 else a)

/-- The specification-side integer-numeral parser (see section comment). -/
def intNumeralSpec (s0 : List Nat) : Option Int :=
  let s1 := s0.dropWhile lisspace
  let p := isneg s1
  match hexMark p.2 with
  | some r =>
    if (r.takeWhile lisxdigit) = [] ∨ (r.dropWhile lisxdigit).dropWhile lisspace ≠ []
    then none
    else some (signedOfU64 p.1 (hexValue (r.takeWhile lisxdigit) % U64))
  | none =>
    if (p.2.takeWhile lisdigit) = [] ∨ (p.2.dropWhile lisdigit).dropWhile lisspace ≠ []
    then none
    else if LUA_MAXINTEGER + (if p.1 then 1 else 0) < decValue (p.2.takeWhile lisdigit)
    then none
    else some (signedOfU64 p.1 (decValue (p.2.takeWhile lisdigit)))

/-- A concrete instantiation of the abstract float operations (used to
evaluate the parameterized theorems on explicit inputs). -/
def trivFloatModel : FloatModel Int where
  str2number := fun _ => (0, 0)
  strx2number := fun _ => (0, 0)
  ofInt := fun i => i
  toIntExact := fun x => some x
  numadd := (· + ·)
  numsub := (· - ·)
  nummul := (· * ·)
  numdiv := (· / ·)
  numpow := (· * ·)
  numidiv := (· / ·)
  nummod := (· % ·)
  numunm := (0 - ·)

/- ## Arithmetic on Lua values (`lobject.c:luaO_arith` and helpers)

`intop` (`lvm.h`, described by the annotations in `lobject.c`) casts both
operands to `lua_Unsigned`, operates, and casts back: two's-complement
wraparound, embedded as arithmetic mod `2^64` via `l_castS2U`/`l_castU2S`.
`luaV_div`/`luaV_mod`/`luaV_shiftl` live in `lvm.c` (not among the sources)
and are modelled from the spec and the annotations: floor division/modulo
raising exactly on a zero divisor, and a shift that returns 0 when shifting by
at least the integer width. -/

/-- The canonical two's-complement wrap of an integer into `[-2^63, 2^63)`. -/
def wrap64 (v : Int) : Int := l_castU2S (l_castS2U v)

/-- The `intop(+, v1, v2)`. -/
def iadd (v1 v2 : Int) : Int := l_castU2S ((l_castS2U v1 + l_castS2U v2) % U64)

/-- The `intop(-, v1, v2)` (unsigned subtraction wraps by borrowing `2^64`). -/
def isub (v1 v2 : Int) : Int :=
  l_castU2S ((l_castS2U v1 + U64 - l_castS2U v2) % U64)

/-- The `intop(*, v1, v2)`. -/
def imul (v1 v2 : Int) : Int := l_castU2S ((l_castS2U v1 * l_castS2U v2) % U64)

/-- The `intop(&, v1, v2)`. -/
def iband (v1 v2 : Int) : Int := l_castU2S (l_castS2U v1 &&& l_castS2U v2)

/-- The `intop(|, v1, v2)`. -/
def ibor (v1 v2 : Int) : Int := l_castU2S (l_castS2U v1 ||| l_castS2U v2)

/-- The `intop(^, v1, v2)`. -/
def ibxor (v1 v2 : Int) : Int := l_castU2S (l_castS2U v1 ^^^ l_castS2U v2)

/-- Runtime errors that the arithmetic path can raise. -/
inductive RtErr where
  | divByZero
  | noArithMetamethod
  deriving DecidableEq, Repr

/-- Modelled from the spec: `luaV_div` (`lvm.c`, not among the sources) —
floor division of integers, raising exactly when the divisor is zero, with
two's-complement wrap of the `0x80… // -1` case. -/
def luaV_div (m n : Int) : Except RtErr Int :=
  if n = 0 then .error .divByZero else .ok (wrap64 (Int.fdiv m n))

/-- Modelled from the spec: `luaV_mod` (`lvm.c`, not among the sources) —
floor modulo (result has the divisor's sign), raising exactly when the
divisor is zero. -/
def luaV_mod (m n : Int) : Except RtErr Int :=
  if n = 0 then .error .divByZero else .ok (wrap64 (Int.fmod m n))

/-- Modelled from the spec: `luaV_shiftl` (`lvm.c`, not among the sources) —
left shift for non-negative `y`, logical right shift for negative `y`,
returning 0 when shifting by the integer width or more. -/
def luaV_shiftl (x y : Int) : Int :=
  if 0 ≤ y then
    if 64 ≤ y then 0 else l_castU2S ((l_castS2U x <<< y.toNat) % U64)
  else
    if y ≤ -64 then 0 else l_castU2S (l_castS2U x >>> (-y).toNat)

/-- The operators of `luaO_arith`, in the `LUA_OP*` order of `lua.h`. -/
inductive LuaOp where
  | add | sub | mul | mod | pow | div | idiv
  | band | bor | bxor | shl | shr | unm | bnot
  deriving DecidableEq, Repr

/-- The `intarith` (`lobject.c`): integer arithmetic, raising (through
`luaV_mod`/`luaV_div`) exactly on division/modulo by zero. `LUA_OPUNM` is
`intop(-, 0, v1)` and `LUA_OPBNOT` is `intop(^, ~l_castS2U(0), v1)`. -/
def intarith (op : LuaOp) (v1 v2 : Int) : Except RtErr Int :=
  match op with
  | .add => .ok (iadd v1 v2)
  | .sub => .ok (isub v1 v2)
  | .mul => .ok (imul v1 v2)
  | .mod => luaV_mod v1 v2
  | .idiv => luaV_div v1 v2
  | .band => .ok (iband v1 v2)
  | .bor => .ok (ibor v1 v2)
  | .bxor => .ok (ibxor v1 v2)
  | .shl => .ok (luaV_shiftl v1 v2)
  | .shr => .ok (luaV_shiftl v1 (-v2))
  | .unm => .ok (isub 0 v1)
  | .bnot => .ok (ibxor (l_castU2S (U64 - 1)) v1)
  | _ => .ok 0

/-- The `numarith` (`lobject.c`): float arithmetic through the `luai_num*`
macros of the abstract float model; the unreachable default returns 0
(`lua_assert(0); return 0`). -/
def numarith {Num : Type} (fm : FloatModel Num) (op : LuaOp) (v1 v2 : Num) : Num :=
  match op with
  | .add => fm.numadd v1 v2
  | .sub => fm.numsub v1 v2
  | .mul => fm.nummul v1 v2
  | .div => fm.numdiv v1 v2
  | .pow => fm.numpow v1 v2
  | .idiv => fm.numidiv v1 v2
  | .unm => fm.numunm v1
  | .mod => fm.nummod v1 v2
  | _ => fm.ofInt 0

/-- The `ttisinteger` (`lobject.h`). -/
def ttisinteger {Num : Type} : TValue Num → Bool
  | .integer _ => true
  | _ => false

/-- The `ivalue` (`lobject.h`); 0 outside integers (`check_exp` guarded in C). -/
def ivalue {Num : Type} : TValue Num → Int
  | .integer i => i
  | _ => 0

/-- Modelled from the spec: the `tonumber` macro (`lvm.h`) backed by
`luaV_tonumber_` (`lvm.c`, not among the sources) — floats convert to
themselves, integers cast to float, and strings convertible to numbers
(through `luaO_str2num`) are accepted. -/
def tonumberV {Num : Type} (fm : FloatModel Num) : TValue Num → Option Num
  | .number x => some x
  | .integer i => some (fm.ofInt i)
  | .str s =>
    match luaO_str2num fm s with
    | some (.integer i, _) => some (fm.ofInt i)
    | some (.number x, _) => some x
    | _ => none
  | _ => none

/-- Modelled from the spec: the `tointeger` macro (`lvm.h`) backed by
`luaV_tointeger` (`lvm.c`, not among the sources) with mode `LUA_FLOORN2I` —
integers convert to themselves, floats only when their value is an exact
integer, and strings through `luaO_str2num` followed by the same rule. -/
def tointegerV {Num : Type} (fm : FloatModel Num) : TValue Num → Option Int
  | .integer i => some i
  | .number x => fm.toIntExact x
  | .str s =>
    match luaO_str2num fm s with
    | some (.integer i, _) => some i
    | some (.number x, _) => fm.toIntExact x
    | _ => none
  | _ => none

/-- Outcome of `luaO_arith`: a directly computed value, or dispatch to the
arithmetic metamethod of the first or of the second operand. -/
inductive ArithOutcome (Num : Type) where
  | direct (v : TValue Num)
  | metaFirst
  | metaSecond
  deriving DecidableEq, Repr

/-- Modelled from the spec: `luaT_trybinTM` (`ltm.c`, not among the sources)
— try the event's metamethod on operand 1, then on operand 2, else raise.
`hasmm` abstracts the metatable lookup for this event. -/
def luaT_trybinTM {Num : Type} (hasmm : TValue Num → Bool) (p1 p2 : TValue Num) :
    Except RtErr (ArithOutcome Num) :=
  if hasmm p1 then .ok .metaFirst
  else if hasmm p2 then .ok .metaSecond
  else .error .noArithMetamethod

/-- The `luaO_arith` (`lobject.c`): bitwise operators coerce both operands to
integers; `/` and `^` coerce both to floats; the remaining operators compute
on integers when both operands are integers and on floats when both coerce;
otherwise the arithmetic metamethod is tried. -/
def luaO_arith {Num : Type} (fm : FloatModel Num) (hasmm : TValue Num → Bool)
    (op : LuaOp) (p1 p2 : TValue Num) : Except RtErr (ArithOutcome Num) :=
  match op with
  | .band | .bor | .bxor | .shl | .shr | .bnot =>
    match tointegerV fm p1, tointegerV fm p2 with
    | some i1, some i2 => (intarith op i1 i2).map (fun r => .direct (.integer r))
    | _, _ => luaT_trybinTM hasmm p1 p2
  | .div | .pow =>
    match tonumberV fm p1, tonumberV fm p2 with
    | some n1, some n2 => .ok (.direct (.number (numarith fm op n1 n2)))
    | _, _ => luaT_trybinTM hasmm p1 p2
  | _ =>
    if ttisinteger p1 && ttisinteger p2 then
      (intarith op (ivalue p1) (ivalue p2)).map (fun r => .direct (.integer r))
    else
      match tonumberV fm p1, tonumberV fm p2 with
      | some n1, some n2 => .ok (.direct (.number (numarith fm op n1 n2)))
      | _, _ => luaT_trybinTM hasmm p1 p2

/- ## The embedding stack (`lapi.c`)

A single frame of the per-thread value stack: slot 0 is the function slot
(`L->ci->func`), the slots above it are the API-visible values, and `L->top`
is the length. `index2addr` resolves positive indices from the frame base and
negative non-pseudo indices from the top; out-of-range positive indices give
the non-valid nil sentinel (`NONVALIDVALUE`), modelled as `none`. -/

/-- The API-visible stack of the running frame: `func` at position 0,
then the pushed values. -/
structure LStack (Num : Type) where
  slots : List (TValue Num)
  deriving Repr

/-- The `index2addr` (`lapi.c`) restricted to non-pseudo indices. -/
def index2addr {Num : Type} (L : LStack Num) (idx : Int) : Option (TValue Num) :=
  if 0 < idx then
    if idx ≤ (L.slots.length : Int) - 1 then L.slots.get? idx.toNat else none
  else
    if -((L.slots.length : Int) - 1) ≤ idx ∧ idx < 0 then
      L.slots.get? (L.slots.length - (-idx).toNat)
    else none

/-- The `lua_pushinteger` (`lapi.c`): `setivalue(L->top, n); api_incr_top(L)`. -/
def lua_pushinteger {Num : Type} (L : LStack Num) (n : Int) : LStack Num :=
  ⟨L.slots ++ [.integer n]⟩

/-- The `lua_pushnumber` (`lapi.c`): `setfltvalue(L->top, n); api_incr_top(L)`. -/
def lua_pushnumber {Num : Type} (L : LStack Num) (x : Num) : LStack Num :=
  ⟨L.slots ++ [.number x]⟩

/-- The `lua_tointegerx` (`lapi.c`): convert the slot with `tointeger`, returning
0 with a cleared `isnum` flag on failure. -/
def lua_tointegerx {Num : Type} (fm : FloatModel Num) (L : LStack Num)
    (idx : Int) : Int × Bool :=
  match index2addr L idx with
  | none => (0, false)
  | some o =>
    match tointegerV fm o with
    | some i => (i, true)
    | none => (0, false)

/-- The `lua_tonumberx` (`lapi.c`): convert the slot with `tonumber`, returning
0 with a cleared `isnum` flag on failure. -/
def lua_tonumberx {Num : Type} (fm : FloatModel Num) (L : LStack Num)
    (idx : Int) : Option Num × Bool :=
  match index2addr L idx with
  | none => (none, false)
  | some o =>
    match tonumberV fm o with
    | some x => (some x, true)
    | none => (none, false)

/- ## `lua_rotate` (`lapi.c`)

`reverse` swaps the two end slots and walks inward, exactly the C loop
`for (; from < to; from++, to--)`; `lua_rotate` rotates the segment from a
resolved stack position `p` to the top by reversing the prefix, the suffix,
and then the whole segment. Positions are Int (C pointer arithmetic: the
conceptual end of the prefix `m` can be `p - 1`). A fuel of
`(to - from + 1).toNat` always covers the loop's iterations, so the model is
total while agreeing with the C loop everywhere. -/

/-- Swap the elements at positions `i` and `j` (the loop body of `reverse`:
`temp = *from; *from = *to; *to = temp`). Out-of-range positions leave the
list unchanged (never reached under the API's preconditions). -/
def swap2 {α : Type} (l : List α) (i j : Nat) : List α :=
  match l.get? i, l.get? j with
  | some vi, some vj => (l.set i vj).set j vi
  | _, _ => l

/-- The `reverse` loop with explicit fuel. -/
def reverseAux {α : Type} : Nat → List α → Int → Int → List α
  | 0, l, _, _ => l
  | fuel + 1, l, i, j =>
    if i < j then reverseAux fuel (swap2 l i.toNat j.toNat) (i + 1) (j - 1)
    else l

/-- The `reverse` (`lapi.c`): reverse the stack segment `[from, to]` in place. -/
def reverse {α : Type} (l : List α) (i j : Int) : List α :=
  reverseAux (j - i + 1).toNat l i j

/-- The `lua_rotate` (`lapi.c`) on the resolved segment `[p, top]`: with
`t = L->top - 1` and `m` the end of the prefix, rotate by reversing the
prefix, the suffix, and the whole segment. -/
def lua_rotate {α : Type} (l : List α) (p : Nat) (n : Int) : List α :=
  let t : Int := (l.length : Int) - 1
  let m : Int := if 0 ≤ n then t - n else (p : Int) - n - 1
  reverse (reverse (reverse l (p : Int) m) (m + 1) t) (p : Int) t

/- ## The short-string table (`lobject.c`: `luaS_resize`, `luaS_remove`,
`internshrstr`)

Interned strings are heap objects; object identity is modelled by an `id`
field drawn from an allocation counter (`nextId`), so two distinct
allocations with equal contents are distinct objects. Bucket chains
(`TString.u.hnext`) become lists; `tb->hash` becomes a list of chains. GC
color bits (the dead/resurrect handling in `internshrstr`) are outside this
model: resurrection changes no field modelled here. -/

/-- A short-string object: identity, byte contents, and the cached hash. -/
structure TString where
  id : Nat
  bytes : List Nat
  hash : Nat
  deriving DecidableEq, Repr

/-- The `lmod` (`lobject.h`): bucket index `hash & (size - 1)`; all callers keep
`size` a power of two. -/
def lmod (h size : Nat) : Nat := h &&& (size - 1)

/-- The `stringtable` (`lstate.h`, used throughout `lobject.c`). -/
structure Stringtable where
  hash : List (List TString)
  nuse : Nat
  size : Nat
  deriving DecidableEq, Repr

/-- The string-related part of the global state: the table, the hash seed,
and the allocation counter providing fresh object identities. -/
structure GStr where
  strt : Stringtable
  seed : Nat
  nextId : Nat
  deriving DecidableEq, Repr

/-- All strings interned in the table. -/
def tableMembers (tb : Stringtable) : List TString := tb.hash.flatten

/-- One iteration of the `luaS_resize` rehash loop: empty bucket `i`, then
re-insert each of its strings at the head of its new bucket
(`lmod(p->hash, newsize)`), consuming the chain front to back. -/
def resizeStep (newsize : Nat) (bs : List (List TString)) (i : Nat) :
    List (List TString) :=
  (bs.getD i []).foldl
    (fun acc p =>
      acc.set (lmod p.hash newsize) (p :: acc.getD (lmod p.hash newsize) []))
    (bs.set i [])

/-- The `luaS_resize` (`lobject.c`): grow the bucket vector if needed
(initializing new buckets to NULL), rehash all `tb->size` old buckets in
place, then shrink the vector if needed, and store the new size. -/
def luaS_resize (g : GStr) (newsize : Nat) : GStr :=
  let tb := g.strt
  let grown := if tb.size < newsize
    then tb.hash ++ List.replicate (newsize - tb.size) []
    else tb.hash
  let rehashed := (List.range tb.size).foldl (resizeStep newsize) grown
  let shrunk := if newsize < tb.size then rehashed.take newsize else rehashed
  { g with strt := { hash := shrunk, nuse := tb.nuse, size := newsize } }

/-- The unlink loop of `luaS_remove`: remove the node that is (pointer-)equal
to `ts` from the chain; in C a missing node never terminates, modelled as
`none`. -/
def removeFromChain (ts : TString) : List TString → Option (List TString)
  | [] => none
  | x :: rest =>
    if x = ts then some rest
    else (removeFromChain ts rest).map (x :: ·)

/-- The `luaS_remove` (`lobject.c`): unlink `ts` from its bucket and decrement
the live count. -/
def luaS_remove (g : GStr) (ts : TString) : Option GStr :=
  let b := lmod ts.hash g.strt.size
  match removeFromChain ts (g.strt.hash.getD b []) with
  | none => none
  | some chain2 =>
    some { g with strt := { hash := g.strt.hash.set b chain2,
                            nuse := g.strt.nuse - 1, size := g.strt.size } }

/-- The `MAX_INT` (`llimits.h`): largest C `int`. -/
def MAX_INT : Nat := 2147483647

/-- The `internshrstr` (`lobject.c`): hash the bytes with the state seed, scan
the bucket chain for an equal string (length plus `memcmp`) and return it on
a hit (resurrection affects only GC bits, not modelled); otherwise grow the
table when `nuse ≥ size`, allocate a fresh object carrying the hash and the
copied bytes, link it at the head of its bucket, and count it. -/
def internshrstr (g : GStr) (str : List Nat) : GStr × TString :=
  let h := luaS_hash str g.seed
  let list := g.strt.hash.getD (lmod h g.strt.size) []
  match list.find? (fun ts => ts.bytes == str) with
  | some ts => (g, ts)
  | none =>
    let g1 := if g.strt.nuse ≥ g.strt.size ∧ g.strt.size ≤ MAX_INT / 2
      then luaS_resize g (g.strt.size * 2) else g
    let ts : TString := { id := g1.nextId, bytes := str, hash := h }
    let b := lmod h g1.strt.size
    ({ g1 with
        strt := { hash := g1.strt.hash.set b (ts :: g1.strt.hash.getD b []),
                  nuse := g1.strt.nuse + 1, size := g1.strt.size },
        nextId := g1.nextId + 1 }, ts)

/-- Well-formedness of the string-table state: the bucket vector realizes the
size; every string sits in the bucket its cached hash selects; every cached
hash is the seeded hash of the contents; every object identity was allocated;
and the uniqueness invariant — equal contents means the same object. -/
def WF (g : GStr) : Prop :=
  g.strt.hash.length = g.strt.size ∧
  0 < g.strt.size ∧
  (∀ i, i < g.strt.size → ∀ ts ∈ g.strt.hash.getD i [],
    lmod ts.hash g.strt.size = i) ∧
  (∀ ts ∈ tableMembers g.strt, ts.hash = luaS_hash ts.bytes g.seed) ∧
  (∀ ts ∈ tableMembers g.strt, ts.id < g.nextId) ∧
  (∀ a ∈ tableMembers g.strt, ∀ b ∈ tableMembers g.strt,
    a.bytes = b.bytes → a = b)

/-! ## Theorems -/

/-- With stride 1 the hash loop folds over the first `l` bytes, last byte
first. -/
theorem hashLoopAux_stride_one (str : List Nat) :
    ∀ (fuel l : Nat), l ≤ fuel → l ≤ str.length → ∀ h,
      hashLoopAux str 1 fuel h l = ((str.take l).reverse).foldl hashStep h := by
  intro fuel
  induction fuel with
  | zero =>
    intro l hfl _ h
    interval_cases l
    simp [hashLoopAux]
  | succ n ih =>
    intro l hfl hstr h
    match l with
    | 0 => simp [hashLoopAux]
    | Nat.succ m =>
      have hm : m < str.length := hstr
      rw [hashLoopAux, if_pos ⟨Nat.one_pos, Nat.succ_le_succ (Nat.zero_le m)⟩]
      rw [Nat.succ_sub_one, ih m (Nat.lt_succ_iff.mp hfl) (le_of_lt hm)]
      rw [List.take_succ, List.getElem?_eq_getElem hm, List.reverse_append]
      simp [List.getD_eq_getElem?_getD, List.getElem?_eq_getElem hm]

/-- The stride-one loop over a whole string is the all-bytes fold. -/
theorem hashLoop_one_eq_hashAllBytes (str : List Nat) (seed : Nat) :
    hashLoop str 1 ((seed % U32) ^^^ (str.length % U32)) str.length
      = hashAllBytes str seed := by
  rw [hashLoop, hashAllBytes,
      hashLoopAux_stride_one str str.length str.length le_rfl le_rfl,
      List.take_length]

/-- C5 (counterexample): the claim "for every short string (length at most
40 bytes) the hash computed by `luaS_hash` incorporates every byte" is false:
the two distinct strings `0 :: 7^31` and `1 :: 7^31` are short (length 32 ≤ 40)
and differ only in their first byte, yet `luaS_hash` gives them the same hash
(stride `(32 >> 5) + 1 = 2` skips the first byte). -/
theorem c5_counterexample :
    (0 :: List.replicate 31 7).length ≤ 40 ∧
    (1 :: List.replicate 31 7).length ≤ 40 ∧
    (0 :: List.replicate 31 7) ≠ (1 :: List.replicate 31 7) ∧
    luaS_hash (0 :: List.replicate 31 7) 0 = luaS_hash (1 :: List.replicate 31 7) 0 := by
  decide

/-- C5 (amended): the stride `(length >> 5) + 1` of `luaS_hash` depends only on
the length, not on the short/long classification; every byte of the string
participates in the hash exactly when the stride is 1, i.e. for strings of
length at most 31 — which covers most short strings but not short strings of
length 32..40. For length ≤ 31 the hash equals the fold that mixes in every
byte. -/
theorem c5_hash_every_byte_below_32 (str : List Nat) (seed : Nat)
    (hl : str.length ≤ 31) : luaS_hash str seed = hashAllBytes str seed := by
  have hstep : (str.length >>> LUAI_HASHLIMIT) + 1 = 1 := by
    rw [Nat.shiftRight_eq_div_pow]
    unfold LUAI_HASHLIMIT
    omega
  rw [luaS_hash]
  simp only [hstep]
  exact hashLoop_one_eq_hashAllBytes str seed

/-- C5 witness: the amended theorem applied to the concrete string `[1,2,3]`. -/
theorem c5_hash_every_byte_below_32_witness :
    ([1, 2, 3] : List Nat).length ≤ 31 ∧
      luaS_hash [1, 2, 3] 9 = hashAllBytes [1, 2, 3] 9 :=
  ⟨by decide, c5_hash_every_byte_below_32 [1, 2, 3] 9 (by decide)⟩

/-- C6 (counterexample): the claim "the new capacity is double the old
capacity, clamped to the limit, and the capacity after any growth is at least
4" fails: growing from size 3 with limit 7 yields 7, not `min (3*2) 7 = 6`
(the code jumps straight to the limit once `size ≥ limit/2`); and growing from
size 1 with limit 2 yields 2, which is below 4. -/
theorem c6_counterexample :
    luaM_growaux_ 3 7 "x" = .ok 7 ∧ min (3 * 2) 7 = 6 ∧ (7 : Nat) ≠ 6 ∧
    luaM_growaux_ 1 2 "x" = .ok 2 ∧ ¬ (4 ≤ 2) := by
  refine ⟨?_, by decide, by decide, ?_, by decide⟩ <;> rfl

/-- C6 (amended): `luaM_growaux_` raises the runtime error
"too many X (limit is N)" exactly when the current size has reached the limit;
when `limit/2 ≤ size < limit` (truncating division) the new capacity jumps to
the limit (not necessarily the clamped double); otherwise the capacity doubles
with a minimum of `MINSIZEARRAY = 4`; every successful growth strictly
increases the capacity. -/
theorem c6_growth_policy (size limit : Nat) (what : String) :
    (limit ≤ size →
      luaM_growaux_ size limit what =
        .error ("too many " ++ what ++ " (limit is " ++ toString limit ++ ")")) ∧
    (size < limit → limit / 2 ≤ size →
      luaM_growaux_ size limit what = .ok limit) ∧
    (size < limit / 2 →
      luaM_growaux_ size limit what = .ok (max (size * 2) MINSIZEARRAY)) ∧
    (∀ n, luaM_growaux_ size limit what = .ok n → size < n) := by
  unfold luaM_growaux_ MINSIZEARRAY
  refine ⟨fun h1 => ?_, fun h1 h2 => ?_, fun h1 => ?_, fun n h => ?_⟩
  · rw [if_pos (Nat.le_trans (Nat.div_le_self _ _) h1), if_pos h1]
  · rw [if_pos h2, if_neg (Nat.not_le.mpr h1)]
  · rw [if_neg (Nat.not_le.mpr h1)]
    rcases Nat.lt_or_ge (size * 2) 4 with h4 | h4
    · rw [if_pos h4, Nat.max_eq_right (Nat.le_of_lt h4)]
    · rw [if_neg (Nat.not_lt.mpr h4), Nat.max_eq_left h4]
  · split_ifs at h with h1 h2 h3 <;> injection h with h <;> omega

/-- C6 witness: the amended policy applied to concrete sizes. -/
theorem c6_growth_policy_witness :
    luaM_growaux_ 5 20 "slots" = .ok (max (5 * 2) MINSIZEARRAY) ∧ 5 < 20 / 2 :=
  ⟨(c6_growth_policy 5 20 "slots").2.2.1 (by decide), by decide⟩

/-- C2: for every call to `luaM_realloc_` with `nsize > 0`:
if the underlying allocator call fails and the state is fully initialized
(version set), exactly one emergency GC cycle is run and the allocation is
retried exactly once (exactly two allocator outcomes are consumed); a second
failure raises `LUA_ERRMEM` through the non-local escape; if the state is not
initialized no GC runs and the error is raised immediately; and every
successful call updates the debt by `GCdebt ← GCdebt + nsize − realosize`,
where `realosize` is `osize` zeroed for a null incoming block (on the retry
path the update applies to the debt as left by the emergency cycle). -/
theorem c2_realloc_trampoline (gcEff : Int → Int) (g : MemG) (block : Bool)
    (osize nsize : Nat) (hn : 0 < nsize) :
    (g.allocOk.headD false = true →
      luaM_realloc_ gcEff g block osize nsize =
        .ok (some (), { g with
              allocOk := g.allocOk.tail,
              gcdebt := g.gcdebt + (nsize : Int)
                - (((if block then osize else 0) : Nat) : Int) })) ∧
    (g.allocOk.headD false = false → g.version = true →
      g.allocOk.tail.headD false = true →
      luaM_realloc_ gcEff g block osize nsize =
        .ok (some (), { g with
              allocOk := g.allocOk.tail.tail,
              gcCount := g.gcCount + 1,
              gcdebt := gcEff g.gcdebt + (nsize : Int)
                - (((if block then osize else 0) : Nat) : Int) })) ∧
    (g.allocOk.headD false = false → g.version = true →
      g.allocOk.tail.headD false = false →
      luaM_realloc_ gcEff g block osize nsize =
        .error (LUA_ERRMEM, { g with
              allocOk := g.allocOk.tail.tail,
              gcCount := g.gcCount + 1,
              gcdebt := gcEff g.gcdebt })) ∧
    (g.allocOk.headD false = false → g.version = false →
      luaM_realloc_ gcEff g block osize nsize =
        .error (LUA_ERRMEM, { g with allocOk := g.allocOk.tail })) := by
  have hz : ¬ nsize = 0 := Nat.pos_iff_ne_zero.mp hn
  refine ⟨fun h1 => ?_, fun h1 hv h2 => ?_, fun h1 hv h2 => ?_, fun h1 hv => ?_⟩ <;>
    simp [luaM_realloc_, frealloc, luaC_fullgc_emergency, hz, h1, hn] <;>
    simp_all [luaM_realloc_, frealloc, luaC_fullgc_emergency]

/-- C2 witness: a concrete run in which the first allocation fails, the
emergency collection runs, and the retry succeeds. -/
theorem c2_realloc_trampoline_witness :
    luaM_realloc_ (fun d => d - 5) ⟨true, 100, [false, true], 0⟩ true 3 8 =
      .ok (some (), ⟨true, (100 - 5 : Int) + 8 - 3, [], 1⟩) :=
  ((c2_realloc_trampoline (fun d => d - 5) ⟨true, 100, [false, true], 0⟩
      true 3 8 (by decide)).2.1 rfl rfl rfl).trans (by norm_num)

/-- The wrapping hex accumulator computes the plain hex value mod `2^64`. -/
theorem hexLoop_fst (r : List Nat) :
    (hexLoop r).1 = hexValue (r.takeWhile lisxdigit) % U64 := by
  rw [hexLoop, hexValue]
  generalize r.takeWhile lisxdigit = ds
  suffices h : ∀ a : Nat,
      ds.foldl (fun a c => (a * 16 + luaO_hexavalue c) % U64) (a % U64)
        = (ds.foldl (fun a c => a * 16 + luaO_hexavalue c) a) % U64 by
    simpa using h 0
  induction ds with
  | nil => intro a; simp
  | cons c t ih =>
    intro a
    simp only [List.foldl_cons]
    rw [← ih (a * 16 + luaO_hexavalue c)]
    congr 1
    exact ((Nat.mod_modEq a U64).mul_right 16).add_right (luaO_hexavalue c)

/-- The decimal accumulator can only grow. -/
theorem foldl10_le (ds : List Nat) :
    ∀ a : Nat, a ≤ ds.foldl (fun x c => x * 10 + (c - 48)) a := by
  induction ds with
  | nil => intro a; exact le_rfl
  | cons c t ih =>
    intro a
    simp only [List.foldl_cons]
    exact le_trans (by omega) (ih (a * 10 + (c - 48)))

/-- The decimal loop of `l_str2int` with its early-overflow guard computes the
plain decimal value of the digit prefix, failing exactly when that value
leaves the signed range (`LUA_MAXINTEGER + neg`). -/
theorem decLoop_eq (neg : Nat) (hneg : neg ≤ 1) :
    ∀ (l : List Nat) (a : Nat) (e : Bool), a ≤ LUA_MAXINTEGER + neg →
      decLoop neg a e l =
        (if LUA_MAXINTEGER + neg <
            (l.takeWhile lisdigit).foldl (fun x c => x * 10 + (c - 48)) a
         then none
         else some ((l.takeWhile lisdigit).foldl (fun x c => x * 10 + (c - 48)) a,
                    l.dropWhile lisdigit, e && (l.takeWhile lisdigit).isEmpty)) := by
  intro l
  induction l with
  | nil =>
    intro a e ha
    simp [decLoop, Nat.not_lt.mpr ha]
  | cons c t ih =>
    intro a e ha
    by_cases hc : lisdigit c
    · have hc' : 48 ≤ c ∧ c ≤ 57 := by
        simpa [lisdigit, Bool.and_eq_true, decide_eq_true_eq] using hc
      rw [decLoop, if_pos hc, List.takeWhile_cons_of_pos hc,
          List.dropWhile_cons_of_pos hc]
      by_cases hg : MAXBY10 ≤ a ∧ (MAXBY10 < a ∨ MAXLASTD + neg < c - 48)
      · rw [if_pos hg]
        have hover : LUA_MAXINTEGER + neg < a * 10 + (c - 48) := by
          simp only [MAXBY10, MAXLASTD, LUA_MAXINTEGER] at hg ha ⊢
          omega
        have hmono := foldl10_le (t.takeWhile lisdigit) (a * 10 + (c - 48))
        rw [List.foldl_cons, if_pos (lt_of_lt_of_le hover hmono)]
      · rw [if_neg hg]
        have hle : a * 10 + (c - 48) ≤ LUA_MAXINTEGER + neg := by
          simp only [MAXBY10, MAXLASTD, LUA_MAXINTEGER] at hg ha ⊢
          omega
        rw [ih (a * 10 + (c - 48)) false hle, List.foldl_cons]
        simp
    · rw [decLoop, if_neg hc, List.takeWhile_cons_of_neg hc,
          List.dropWhile_cons_of_neg hc]
      simp [Nat.not_lt.mpr ha]

/-- The `l_str2int` coincides with the specification-side integer-numeral
parser. -/
theorem l_str2int_eq_intNumeralSpec (s0 : List Nat) :
    l_str2int s0 = intNumeralSpec s0 := by
  rw [l_str2int, intNumeralSpec]
  set p := isneg (s0.dropWhile lisspace) with hp
  cases hhex : hexMark p.2 with
  | some r =>
    simp only [hhex]
    rw [hexLoop]
    by_cases h1 : (r.takeWhile lisxdigit) = []
    · simp [h1, signedOfU64, hexValue]
    · have hne : (r.takeWhile lisxdigit).isEmpty = false := by
        simpa [List.isEmpty_iff] using h1
      by_cases h2 : (r.dropWhile lisxdigit).dropWhile lisspace = []
      · have hv : (r.takeWhile lisxdigit).foldl
            (fun a c => (a * 16 + luaO_hexavalue c) % U64) 0
              = hexValue (r.takeWhile lisxdigit) % U64 := by
          simpa [hexLoop] using hexLoop_fst r
        simp [hne, h1, h2, signedOfU64, hv]
      · simp [hne, h1, h2]
  | none =>
    simp only [hhex]
    rw [decLoop_eq (if p.1 then 1 else 0) (by split <;> omega) p.2 0 true
        (Nat.zero_le _)]
    by_cases hover : LUA_MAXINTEGER + (if p.1 then 1 else 0) <
        (p.2.takeWhile lisdigit).foldl (fun x c => x * 10 + (c - 48)) 0
    · rw [if_pos hover]
      show (none : Option Int) = _
      by_cases h1 : (p.2.takeWhile lisdigit) = [] ∨
          (p.2.dropWhile lisdigit).dropWhile lisspace ≠ []
      · rw [if_pos h1]
      · rw [if_neg h1, if_pos (by simpa [decValue] using hover)]
    · rw [if_neg hover]
      by_cases h1 : (p.2.takeWhile lisdigit) = []
      · simp [h1, signedOfU64, decValue, Nat.not_lt.mp hover]
      · have hne : (p.2.takeWhile lisdigit).isEmpty = false := by
          simpa [List.isEmpty_iff] using h1
        by_cases h2 : (p.2.dropWhile lisdigit).dropWhile lisspace = []
        · have hnov : ¬ LUA_MAXINTEGER + (if p.1 then 1 else 0) <
              decValue (p.2.takeWhile lisdigit) := by
            simpa [decValue] using hover
          simp [hne, h1, h2, signedOfU64, decValue, hnov]
          exact Nat.not_lt.mp hover
        · simp [hne, h1, h2]

/-- The `isneg` on a head byte that is not a sign leaves the string alone. -/
theorem isneg_not_sign (c : Nat) (t : List Nat) (h1 : c ≠ 45) (h2 : c ≠ 43) :
    isneg (c :: t) = (false, c :: t) := by
  unfold isneg
  split
  · rename_i heq; injection heq with hc _; exact absurd hc h1
  · rename_i heq; injection heq with hc _; exact absurd hc h2
  · rfl

/-- The `hexMark` never fires on a string of decimal digits. -/
theorem hexMark_of_digits (l : List Nat) (hd : ∀ c ∈ l, lisdigit c = true) :
    hexMark l = none := by
  unfold hexMark
  split
  · have := hd 120 (by simp)
    simp [lisdigit] at this
  · have := hd 88 (by simp)
    simp [lisdigit] at this
  · rfl

/-- C4: `luaO_str2num` attempts integer conversion (`l_str2int`) first and
returns its value when it succeeds; it falls back to the float conversion
(`l_str2d`) exactly when `l_str2int` fails, which happens exactly when the
string is not an integer numeral (optional spaces, sign, digits — so any
fractional/exponent syntax fails) or a decimal numeral overflows the signed
range; on success the returned size is the consumed string's length plus one,
and on failure `none` is returned (0 with no value in C). -/
theorem c4_str2num_int_first {Num : Type} (fm : FloatModel Num) (s : List Nat) :
    (∀ i : Int, l_str2int s = some i →
      luaO_str2num fm s = some (.integer i, s.length + 1)) ∧
    (l_str2int s = none → ∀ x : Num, l_str2d fm s = some x →
      luaO_str2num fm s = some (.number x, s.length + 1)) ∧
    (l_str2int s = none → l_str2d fm s = none → luaO_str2num fm s = none) ∧
    l_str2int s = intNumeralSpec s := by
  refine ⟨fun i hi => ?_, fun hn x hx => ?_, fun hn hx => ?_,
    l_str2int_eq_intNumeralSpec s⟩
  · simp [luaO_str2num, hi]
  · simp [luaO_str2num, hn, hx]
  · simp [luaO_str2num, hn, hx]

/-- C4 witness: the string "42" parses as the integer 42 with size 3, and
" 1e2" (float syntax) is rejected by the integer parser. -/
theorem c4_str2num_int_first_witness :
    luaO_str2num trivFloatModel [52, 50] = some (.integer 42, 3) ∧
    l_str2int [32, 49, 101, 50] = intNumeralSpec [32, 49, 101, 50] :=
  ⟨(c4_str2num_int_first trivFloatModel [52, 50]).1 42 (by decide),
   (c4_str2num_int_first trivFloatModel [32, 49, 101, 50]).2.2.2⟩

/-- C10: a string of the form `0x` followed by hex digits is always accepted
by `l_str2int` — there is no overflow detection: the result is the digit
value accumulated with unsigned wraparound, i.e. reduced modulo `2^64` and
reinterpreted as a signed integer — hence `luaO_str2num` returns an integer
and never falls back to float; whereas a decimal numeral whose value exceeds
`LUA_MAXINTEGER` is rejected by `l_str2int`. -/
theorem c10_hex_wraparound {Num : Type} (fm : FloatModel Num) (ds : List Nat)
    (hne : ds ≠ []) (hds : ∀ c ∈ ds, lisxdigit c = true) :
    l_str2int (48 :: 120 :: ds) = some (l_castU2S (hexValue ds % U64)) ∧
    luaO_str2num fm (48 :: 120 :: ds) =
      some (.integer (l_castU2S (hexValue ds % U64)), ds.length + 3) ∧
    (∀ ds2 : List Nat, (∀ c ∈ ds2, lisdigit c = true) →
      LUA_MAXINTEGER < decValue ds2 → l_str2int ds2 = none) := by
  have h1 : l_str2int (48 :: 120 :: ds) = some (l_castU2S (hexValue ds % U64)) := by
    rw [l_str2int_eq_intNumeralSpec, intNumeralSpec]
    have hdrop : (48 :: 120 :: ds).dropWhile lisspace = 48 :: 120 :: ds :=
      List.dropWhile_cons_of_neg (by simp [lisspace])
    rw [hdrop, isneg_not_sign 48 _ (by omega) (by omega)]
    have htk : ds.takeWhile lisxdigit = ds := List.takeWhile_eq_self_iff.mpr hds
    have hdw : ds.dropWhile lisxdigit = [] := List.dropWhile_eq_nil_iff.mpr hds
    simp only [hexMark, htk, hdw]
    simp [hne, signedOfU64]
  refine ⟨h1, ?_, fun ds2 hds2 hover => ?_⟩
  · simp [luaO_str2num, h1]
  · rw [l_str2int_eq_intNumeralSpec, intNumeralSpec]
    have hne2 : ds2 ≠ [] := by
      intro h
      rw [h] at hover
      simp [decValue, LUA_MAXINTEGER] at hover
    obtain ⟨c, t, rfl⟩ := List.exists_cons_of_ne_nil hne2
    have hc : lisdigit c = true := hds2 c (List.mem_cons_self _ _)
    have hc' : 48 ≤ c ∧ c ≤ 57 := by
      simpa [lisdigit, Bool.and_eq_true, decide_eq_true_eq] using hc
    have hdrop : (c :: t).dropWhile lisspace = c :: t :=
      List.dropWhile_cons_of_neg (by simp [lisspace]; omega)
    rw [hdrop, isneg_not_sign c t (by omega) (by omega),
        hexMark_of_digits _ hds2]
    have htk : (c :: t).takeWhile lisdigit = c :: t :=
      List.takeWhile_eq_self_iff.mpr hds2
    simp only [htk]
    rw [if_neg]
    · rw [if_pos (by simpa using hover)]
    · have hdw : (c :: t).dropWhile lisdigit = [] :=
        List.dropWhile_eq_nil_iff.mpr hds2
      simp [hdw]

/-- C10 witness: `0xffffffffffffffff1` (17 hex digits) wraps to `-15`, and the
decimal numeral `9223372036854775808` (= `LUA_MAXINTEGER + 1`) is rejected. -/
theorem c10_hex_wraparound_witness :
    l_str2int (48 :: 120 :: (List.replicate 16 102 ++ [49])) =
      some (l_castU2S (hexValue (List.replicate 16 102 ++ [49]) % U64)) ∧
    l_str2int [57, 50, 50, 51, 51, 55, 50, 48, 51, 54, 56, 53, 52, 55,
               55, 53, 56, 48, 56] = none :=
  ⟨(c10_hex_wraparound trivFloatModel (List.replicate 16 102 ++ [49])
      (by decide) (by decide)).1,
   (c10_hex_wraparound trivFloatModel [49] (by decide) (by decide)).2.2
     [57, 50, 50, 51, 51, 55, 50, 48, 51, 54, 56, 53, 52, 55, 55, 53, 56, 48, 56]
     (by decide) (by decide)⟩

/-- The `l_castS2U` as an integer: reduction mod `2^64`. -/
theorem l_castS2U_cast (v : Int) : (l_castS2U v : Int) = v % ((U64 : Nat) : Int) := by
  unfold l_castS2U U64
  omega

/-- The `l_castU2S` depends only on its argument mod `2^64`. -/
theorem l_castU2S_congr {a b : Nat} (h : a % U64 = b % U64) :
    l_castU2S a = l_castU2S b := by
  have hI : ((a : Int)) % ((U64 : Nat) : Int) = ((b : Int)) % ((U64 : Nat) : Int) := by
    exact_mod_cast congrArg (Nat.cast : Nat → Int) h
  simp only [l_castU2S, h, hI]

/-- The `intop(+)` is the two's-complement wrap of exact addition. -/
theorem iadd_eq_wrap64 (v1 v2 : Int) : iadd v1 v2 = wrap64 (v1 + v2) := by
  unfold iadd wrap64
  apply l_castU2S_congr
  unfold l_castS2U U64
  omega

/-- The `intop(-)` is the two's-complement wrap of exact subtraction. -/
theorem isub_eq_wrap64 (v1 v2 : Int) : isub v1 v2 = wrap64 (v1 - v2) := by
  unfold isub wrap64
  apply l_castU2S_congr
  unfold l_castS2U U64
  omega

/-- The `intop(*)` is the two's-complement wrap of exact multiplication. -/
theorem imul_eq_wrap64 (v1 v2 : Int) : imul v1 v2 = wrap64 (v1 * v2) := by
  unfold imul wrap64
  apply l_castU2S_congr
  have key : ((l_castS2U v1 * l_castS2U v2) % U64 : Nat) = l_castS2U (v1 * v2) := by
    have h2 : (((l_castS2U v1 * l_castS2U v2) % U64 : Nat) : Int)
        = ((l_castS2U (v1 * v2) : Nat) : Int) := by
      push_cast
      rw [l_castS2U_cast, l_castS2U_cast, l_castS2U_cast, ← Int.mul_emod]
    exact_mod_cast h2
  rw [key]

/-- The wrap is congruent to the exact value mod `2^64` and lands in the
signed 64-bit range. -/
theorem wrap64_spec (v : Int) :
    wrap64 v ≡ v [ZMOD ((U64 : Nat) : Int)] ∧
    -(2 ^ 63) ≤ wrap64 v ∧ wrap64 v < 2 ^ 63 := by
  unfold Int.ModEq wrap64 l_castU2S l_castS2U U64
  split <;> push_cast <;> omega

/-- C8: for all integer operands, `intarith` computes add, subtract, multiply
and unary minus as the mathematically exact result wrapped two's-complement
into `[-2^63, 2^63)` (congruent mod `2^64`), never raising; and integer
division and modulo raise exactly when the divisor is zero (floor
division/modulo otherwise). -/
theorem c8_intarith_twos_complement (v1 v2 : Int) :
    (intarith .add v1 v2 = .ok (wrap64 (v1 + v2)) ∧
     intarith .sub v1 v2 = .ok (wrap64 (v1 - v2)) ∧
     intarith .mul v1 v2 = .ok (wrap64 (v1 * v2)) ∧
     intarith .unm v1 v2 = .ok (wrap64 (-v1))) ∧
    (∀ v : Int, wrap64 v ≡ v [ZMOD ((U64 : Nat) : Int)] ∧
      -(2 ^ 63) ≤ wrap64 v ∧ wrap64 v < 2 ^ 63) ∧
    (v2 = 0 → intarith .mod v1 v2 = .error .divByZero ∧
              intarith .idiv v1 v2 = .error .divByZero) ∧
    (v2 ≠ 0 → intarith .mod v1 v2 = .ok (wrap64 (Int.fmod v1 v2)) ∧
              intarith .idiv v1 v2 = .ok (wrap64 (Int.fdiv v1 v2))) := by
  refine ⟨⟨?_, ?_, ?_, ?_⟩, wrap64_spec, fun h0 => ?_, fun h0 => ?_⟩
  · rw [intarith, iadd_eq_wrap64]
  · rw [intarith, isub_eq_wrap64]
  · rw [intarith, imul_eq_wrap64]
  · rw [intarith, isub_eq_wrap64, zero_sub]
  · constructor <;> simp [intarith, luaV_mod, luaV_div, h0]
  · constructor <;> simp [intarith, luaV_mod, luaV_div, h0]

/-- C8 witness: `LUA_MAXINTEGER + 1` wraps to `-2^63`, and division by zero
raises. -/
theorem c8_intarith_twos_complement_witness :
    intarith .add 9223372036854775807 1 = .ok (wrap64 9223372036854775808) ∧
    wrap64 9223372036854775808 = -9223372036854775808 ∧
    intarith .idiv 5 0 = .error .divByZero :=
  ⟨(c8_intarith_twos_complement 9223372036854775807 1).1.1,
   by decide,
   ((c8_intarith_twos_complement 5 0).2.2.1 rfl).2⟩

/-- Integer-tagged values always coerce to a number. -/
theorem tonumberV_of_integer {Num : Type} (fm : FloatModel Num) (p : TValue Num)
    (h : ttisinteger p = true) : tonumberV fm p = some (fm.ofInt (ivalue p)) := by
  cases p <;> simp_all [ttisinteger, tonumberV, ivalue]

/-- C3: dispatch of binary arithmetic in `luaO_arith`. (i) Two integer
operands under an integer-capable arithmetic operator compute directly with
integer typing. (ii) Under the float-forcing operators `/` and `^`, operands
that both coerce to numbers (integers, floats, and strings convertible to
numbers, per `tonumberV`) compute directly with float typing. (iii) Under the
other arithmetic operators, coercible operands that are not both
integer-tagged compute directly with float typing. (iv) If either operand
fails numeric coercion, the arithmetic metamethod is tried on operand 1, then
on operand 2, and an error is raised when neither has one. -/
theorem c3_arith_dispatch {Num : Type} (fm : FloatModel Num)
    (hasmm : TValue Num → Bool) (p1 p2 : TValue Num) :
    (∀ i1 i2, p1 = .integer i1 → p2 = .integer i2 →
      ∀ op ∈ [LuaOp.add, .sub, .mul, .mod, .idiv],
        luaO_arith fm hasmm op p1 p2 =
          (intarith op i1 i2).map (fun r => .direct (.integer r))) ∧
    (∀ n1 n2, tonumberV fm p1 = some n1 → tonumberV fm p2 = some n2 →
      ∀ op ∈ [LuaOp.div, .pow],
        luaO_arith fm hasmm op p1 p2 =
          .ok (.direct (.number (numarith fm op n1 n2)))) ∧
    (∀ n1 n2, tonumberV fm p1 = some n1 → tonumberV fm p2 = some n2 →
      (ttisinteger p1 && ttisinteger p2) = false →
      ∀ op ∈ [LuaOp.add, .sub, .mul, .mod, .idiv],
        luaO_arith fm hasmm op p1 p2 =
          .ok (.direct (.number (numarith fm op n1 n2)))) ∧
    (∀ op ∈ [LuaOp.add, .sub, .mul, .mod, .idiv, .div, .pow],
      (tonumberV fm p1 = none ∨ tonumberV fm p2 = none) →
        luaO_arith fm hasmm op p1 p2 =
          (if hasmm p1 then .ok .metaFirst
           else if hasmm p2 then .ok .metaSecond
           else .error .noArithMetamethod)) := by
  refine ⟨fun i1 i2 h1 h2 op hop => ?_, fun n1 n2 h1 h2 op hop => ?_,
    fun n1 n2 h1 h2 hni op hop => ?_, fun op hop hfail => ?_⟩
  · subst h1 h2
    fin_cases hop <;> simp [luaO_arith, ttisinteger, ivalue]
  · fin_cases hop <;> simp [luaO_arith, h1, h2]
  · fin_cases hop <;> simp [luaO_arith, h1, h2, hni]
  · have hni : (ttisinteger p1 && ttisinteger p2) = false := by
      cases hp1 : ttisinteger p1 <;> cases hp2 : ttisinteger p2 <;> simp_all
      rcases hfail with hf | hf
      · exact absurd (tonumberV_of_integer fm p1 hp1) (by simp [hf])
      · exact absurd (tonumberV_of_integer fm p2 hp2) (by simp [hf])
    fin_cases hop <;>
      rcases htn1 : tonumberV fm p1 with _ | n1 <;>
        rcases htn2 : tonumberV fm p2 with _ | n2 <;>
        first
          | (exfalso; rcases hfail with hf | hf <;> simp_all; done)
          | simp [luaO_arith, htn1, htn2, hni, luaT_trybinTM]

/-- C3 witness: `2 + 3` computes directly as an integer; `10 / "4"` (string
operand) computes as a float; `nil + t` dispatches to the metamethod of the
second operand. -/
theorem c3_arith_dispatch_witness :
    luaO_arith trivFloatModel (fun v => v == .table 7) .add (.integer 2) (.integer 3)
      = (intarith .add 2 3).map (fun r => .direct (.integer r)) ∧
    luaO_arith trivFloatModel (fun v => v == .table 7) .div (.integer 10) (.str [52])
      = .ok (.direct (.number (numarith trivFloatModel .div 10 4))) ∧
    luaO_arith trivFloatModel (fun v => v == .table 7) .add .nil (.table 7)
      = .ok .metaSecond := by
  have h := c3_arith_dispatch trivFloatModel (fun v => v == .table 7)
  refine ⟨(h (.integer 2) (.integer 3)).1 2 3 rfl rfl .add (by simp), ?_, ?_⟩
  · exact (h (.integer 10) (.str [52])).2.1 10 4 (by decide) (by decide) .div (by simp)
  · exact ((h .nil (.table 7)).2.2.2 .add (by simp) (Or.inl (by decide))).trans
      (by rfl)

/-- C7: push/read round-trips at the top of the stack (index `-1`): for every
`lua_Integer` in the 64-bit signed range, `lua_tointegerx` reads back exactly
the integer written by `lua_pushinteger`, with the success flag set; and for
every float payload (in particular every non-NaN one), `lua_tonumberx` reads
back the value written by `lua_pushnumber` bit-identically (the payload is
moved, never re-encoded). -/
theorem index2addr_top {Num : Type} (l : List (TValue Num)) (v : TValue Num)
    (h : l ≠ []) : index2addr ⟨l ++ [v]⟩ (-1) = some v := by
  have hpos : 1 ≤ l.length := List.length_pos.mpr h
  have hlen : (l ++ [v]).length = l.length + 1 := by simp
  have hcast : (1 : Int) ≤ (l.length : Int) := by exact_mod_cast hpos
  rw [index2addr, if_neg (by omega),
      if_pos (by
        refine ⟨?_, by norm_num⟩
        simp only [hlen]
        push_cast
        linarith)]
  have hidx : (⟨l ++ [v]⟩ : LStack Num).slots.length - (-(-1 : Int)).toNat = l.length := by
    show (l ++ [v]).length - (-(-1 : Int)).toNat = l.length
    rw [hlen]
    norm_num
  rw [hidx, List.get?_eq_getElem?, List.getElem?_append_right le_rfl]
  simp

theorem c7_push_read_roundtrip {Num : Type} (fm : FloatModel Num)
    (L : LStack Num) (n : Int) (x : Num) (hfunc : L.slots ≠ [])
    (hn : -(2 ^ 63) ≤ n ∧ n < 2 ^ 63) :
    lua_tointegerx fm (lua_pushinteger L n) (-1) = (n, true) ∧
    lua_tonumberx fm (lua_pushnumber L x) (-1) = (some x, true) := by
  constructor
  · rw [lua_tointegerx, lua_pushinteger, index2addr_top _ _ hfunc]
    rfl
  · rw [lua_tonumberx, lua_pushnumber, index2addr_top _ _ hfunc]
    rfl

/-- C7 witness: pushing 42 and reading it back on the empty frame. -/
theorem c7_push_read_roundtrip_witness :
    lua_tointegerx trivFloatModel (lua_pushinteger ⟨[.nil]⟩ 42) (-1) = (42, true) ∧
    lua_tonumberx trivFloatModel (lua_pushnumber ⟨[.nil]⟩ (5 : Int)) (-1)
      = (some 5, true) :=
  c7_push_read_roundtrip trivFloatModel ⟨[.nil]⟩ 42 5 (by decide) (by decide)

/-- Element-wise effect of `swap2`. -/
theorem swap2_spec {α : Type} (l : List α) (i j : Nat)
    (hi : i < l.length) (hj : j < l.length) :
    (swap2 l i j).length = l.length ∧
    ∀ k : Nat, (swap2 l i j).get? k =
      if k = i then l.get? j else if k = j then l.get? i else l.get? k := by
  obtain ⟨vi, hvi⟩ : ∃ v, l.get? i = some v :=
    ⟨l.get ⟨i, hi⟩, List.get?_eq_get hi⟩
  obtain ⟨vj, hvj⟩ : ∃ v, l.get? j = some v :=
    ⟨l.get ⟨j, hj⟩, List.get?_eq_get hj⟩
  rw [swap2, hvi, hvj]
  refine ⟨by simp, fun k => ?_⟩
  simp only [List.get?_eq_getElem?] at hvi hvj ⊢
  simp only [List.getElem?_set, List.length_set]
  split_ifs <;> first
    | rfl
    | simp_all

/-- Element-wise effect of the `reverse` loop: with enough fuel, the segment
`[i, j]` is mirrored (`k ↦ i + j - k`) and everything else is untouched. -/
theorem reverseAux_spec {α : Type} :
    ∀ (fuel : Nat) (l : List α) (i j : Int), 0 ≤ i → j < l.length →
      (j - i + 1).toNat ≤ fuel →
      (reverseAux fuel l i j).length = l.length ∧
      ∀ k : Nat, (reverseAux fuel l i j).get? k =
        if i ≤ (k : Int) ∧ (k : Int) ≤ j then l.get? (i + j - k).toNat
        else l.get? k := by
  intro fuel
  induction fuel with
  | zero =>
    intro l i j hi hj hf
    refine ⟨rfl, fun k => ?_⟩
    rw [reverseAux, if_neg (by omega)]
  | succ fuel ih =>
    intro l i j hi hj hf
    rw [reverseAux]
    by_cases hij : i < j
    · rw [if_pos hij]
      have hlt_i : i.toNat < l.length := by omega
      have hlt_j : j.toNat < l.length := by omega
      have hswlen : (swap2 l i.toNat j.toNat).length = l.length :=
        (swap2_spec l i.toNat j.toNat hlt_i hlt_j).1
      have hsw := (swap2_spec l i.toNat j.toNat hlt_i hlt_j).2
      obtain ⟨ihlen, ihget⟩ := ih (swap2 l i.toNat j.toNat) (i + 1) (j - 1)
        (by omega) (by rw [hswlen]; omega) (by omega)
      refine ⟨ihlen.trans hswlen, fun k => ?_⟩
      rw [ihget k]
      by_cases hk1 : i + 1 ≤ (k : Int) ∧ (k : Int) ≤ j - 1
      · rw [if_pos hk1, hsw (i + 1 + (j - 1) - k).toNat,
            if_neg (by omega), if_neg (by omega), if_pos (by omega)]
        congr 1
        omega
      · rw [if_neg hk1, hsw k]
        by_cases hki : k = i.toNat
        · rw [if_pos hki, if_pos (by omega)]
          congr 1
          omega
        · rw [if_neg hki]
          by_cases hkj : k = j.toNat
          · rw [if_pos hkj, if_pos (by omega)]
            congr 1
            omega
          · rw [if_neg hkj, if_neg (by omega)]
    · rw [if_neg hij]
      refine ⟨rfl, fun k => ?_⟩
      by_cases hk : i ≤ (k : Int) ∧ (k : Int) ≤ j
      · rw [if_pos hk]
        congr 1
        omega
      · rw [if_neg hk]

/-- The `reverse` mirrors the segment `[i, j]` and touches nothing else. -/
theorem reverse_spec {α : Type} (l : List α) (i j : Int) (hi : 0 ≤ i)
    (hj : j < l.length) :
    (reverse l i j).length = l.length ∧
    ∀ k : Nat, (reverse l i j).get? k =
      if i ≤ (k : Int) ∧ (k : Int) ≤ j then l.get? (i + j - k).toNat
      else l.get? k :=
  reverseAux_spec _ l i j hi hj le_rfl

/-- C9: `lua_rotate` implemented as three in-place reversals is the naive
rotation: for a valid resolved stack position `p` and any `n` with `|n|` at
most the segment length, the element at position `p + off` moves to position
`p + ((off + n) mod seglen)`, the number of slots is unchanged, and all slots
below `p` are unchanged. -/
theorem c9_rotate {α : Type} (l : List α) (p : Nat) (n : Int)
    (hp : p < l.length) (hn : n.natAbs ≤ l.length - p) :
    (lua_rotate l p n).length = l.length ∧
    (∀ k : Nat, k < p → (lua_rotate l p n).get? k = l.get? k) ∧
    (∀ off : Nat, p + off < l.length →
      (lua_rotate l p n).get?
          (p + (((off : Int) + n) % ((l.length : Int) - (p : Int))).toNat)
        = l.get? (p + off)) := by
  have hrot : lua_rotate l p n =
      reverse (reverse (reverse l (p : Int)
          (if 0 ≤ n then ((l.length : Int) - 1) - n else (p : Int) - n - 1))
        ((if 0 ≤ n then ((l.length : Int) - 1) - n else (p : Int) - n - 1) + 1)
        ((l.length : Int) - 1))
      (p : Int) ((l.length : Int) - 1) := rfl
  have hnI : (n.natAbs : Int) ≤ (l.length : Int) - (p : Int) := by omega
  rcases le_or_lt 0 n with hsign | hsign
  · rw [if_pos hsign] at hrot
    have s1 := reverse_spec l (p : Int) (((l.length : Int) - 1) - n)
      (by omega) (by omega)
    have s2 := reverse_spec _ ((((l.length : Int) - 1) - n) + 1)
      ((l.length : Int) - 1) (by omega) (by rw [s1.1]; omega)
    have s3 := reverse_spec _ (p : Int) ((l.length : Int) - 1)
      (by omega) (by rw [s2.1, s1.1]; omega)
    rw [hrot]
    refine ⟨s3.1.trans (s2.1.trans s1.1), fun k hk => ?_, fun off hoff => ?_⟩
    · rw [s3.2 k, if_neg (by omega), s2.2 k, if_neg (by omega),
        s1.2 k, if_neg (by omega)]
    · set S : Int := (l.length : Int) - (p : Int) with hS
      set e : Int := ((off : Int) + n) % S with he
      have he0 : 0 ≤ e := Int.emod_nonneg _ (by omega)
      have he1 : e < S := Int.emod_lt_of_pos _ (by omega)
      rcases lt_or_le ((off : Int) + n) S with hcase | hcase
      · have he3 : e = (off : Int) + n := by
          rw [he]
          exact Int.emod_eq_of_lt (by omega) hcase
        rw [s3.2, if_pos (by constructor <;> omega), s2.2,
            if_neg (by omega), s1.2, if_pos (by constructor <;> omega)]
        congr 1
        omega
      · have he3 : e = (off : Int) + n - S := by
          have hsub : ((off : Int) + n - S) % S = ((off : Int) + n) % S := by
            conv_lhs => rw [show (off : Int) + n - S
              = (off : Int) + n + S * (-1) by ring]
            simp
          rw [he, ← hsub]
          exact Int.emod_eq_of_lt (by omega) (by omega)
        rw [s3.2, if_pos (by constructor <;> omega), s2.2,
            if_pos (by constructor <;> omega), s1.2, if_neg (by omega)]
        congr 1
        omega
  · rw [if_neg (by omega)] at hrot
    have s1 := reverse_spec l (p : Int) ((p : Int) - n - 1)
      (by omega) (by omega)
    have s2 := reverse_spec _ (((p : Int) - n - 1) + 1)
      ((l.length : Int) - 1) (by omega) (by rw [s1.1]; omega)
    have s3 := reverse_spec _ (p : Int) ((l.length : Int) - 1)
      (by omega) (by rw [s2.1, s1.1]; omega)
    rw [hrot]
    refine ⟨s3.1.trans (s2.1.trans s1.1), fun k hk => ?_, fun off hoff => ?_⟩
    · rw [s3.2 k, if_neg (by omega), s2.2 k, if_neg (by omega),
        s1.2 k, if_neg (by omega)]
    · set S : Int := (l.length : Int) - (p : Int) with hS
      set e : Int := ((off : Int) + n) % S with he
      have he0 : 0 ≤ e := Int.emod_nonneg _ (by omega)
      have he1 : e < S := Int.emod_lt_of_pos _ (by omega)
      rcases le_or_lt 0 ((off : Int) + n) with hcase | hcase
      · have he3 : e = (off : Int) + n := by
          rw [he]
          exact Int.emod_eq_of_lt hcase (by omega)
        rw [s3.2, if_pos (by constructor <;> omega), s2.2,
            if_pos (by constructor <;> omega), s1.2, if_neg (by omega)]
        congr 1
        omega
      · have he3 : e = (off : Int) + n + S := by
          have hadd : ((off : Int) + n + S) % S = ((off : Int) + n) % S := by
            conv_lhs => rw [show (off : Int) + n + S
              = (off : Int) + n + S * 1 by ring]
            simp
          rw [he, ← hadd]
          exact Int.emod_eq_of_lt (by omega) (by omega)
        rw [s3.2, if_pos (by constructor <;> omega), s2.2,
            if_neg (by omega), s1.2, if_pos (by constructor <;> omega)]
        congr 1
        omega

/-- C9 witness: rotating the segment `[20,30,40]` of `[10,20,30,40]` by one
position toward the top. -/
theorem c9_rotate_witness :
    (lua_rotate ([10, 20, 30, 40] : List Nat) 1 1).length
        = ([10, 20, 30, 40] : List Nat).length ∧
    (lua_rotate ([10, 20, 30, 40] : List Nat) 1 1).get? 0
        = ([10, 20, 30, 40] : List Nat).get? 0 ∧
    (lua_rotate ([10, 20, 30, 40] : List Nat) 1 1).get?
        (1 + (((0 : Nat) : Int) + 1) %
          ((([10, 20, 30, 40] : List Nat).length : Int) - ((1 : Nat) : Int)) |>.toNat)
        = ([10, 20, 30, 40] : List Nat).get? (1 + 0) ∧
    lua_rotate ([10, 20, 30, 40] : List Nat) 1 1 = [10, 40, 20, 30] :=
  have h := c9_rotate ([10, 20, 30, 40] : List Nat) 1 1 (by decide) (by decide)
  ⟨h.1, h.2.1 0 (by decide), h.2.2 0 (by decide), by decide⟩

/-- A bucket index is always below a positive size. -/
theorem lmod_lt (h size : Nat) (hs : 0 < size) : lmod h size < size :=
  lt_of_le_of_lt Nat.and_le_right (by omega)

/-- The `getD` after setting the same bucket. -/
theorem getD_set_self (bs : List (List TString)) (i : Nat) (v : List TString)
    (h : i < bs.length) : (bs.set i v).getD i [] = v := by
  simp [List.getD_eq_getElem?_getD, List.getElem?_set, h]

/-- The `getD` after setting a different bucket. -/
theorem getD_set_ne (bs : List (List TString)) (i j : Nat) (v : List TString)
    (h : i ≠ j) : (bs.set i v).getD j [] = bs.getD j [] := by
  simp [List.getD_eq_getElem?_getD, List.getElem?_set, h]

/-- Membership in the flattened buckets, bucket-wise. -/
theorem mem_flatten_getD (bs : List (List TString)) (ts : TString) :
    ts ∈ bs.flatten ↔ ∃ j, j < bs.length ∧ ts ∈ bs.getD j [] := by
  rw [List.mem_flatten]
  constructor
  · rintro ⟨c, hc, hts⟩
    obtain ⟨j, hj, rfl⟩ := List.mem_iff_getElem.mp hc
    exact ⟨j, hj, by simpa [List.getD_eq_getElem?_getD, List.getElem?_eq_getElem hj] using hts⟩
  · rintro ⟨j, hj, hts⟩
    refine ⟨bs[j], List.getElem_mem hj, ?_⟩
    simpa [List.getD_eq_getElem?_getD, List.getElem?_eq_getElem hj] using hts

/-- Effect of re-inserting a chain of strings at their new buckets (the
inner loop of the `luaS_resize` rehash): contents of a bucket `j` afterwards
are the chain elements whose new position is `j` plus the previous bucket
contents. -/
theorem foldl_ins_spec (newsize : Nat) :
    ∀ (c : List TString) (bs : List (List TString)),
      (∀ p : TString, lmod p.hash newsize < bs.length) →
      letI out := c.foldl
        (fun acc p =>
          acc.set (lmod p.hash newsize) (p :: acc.getD (lmod p.hash newsize) []))
        bs
      out.length = bs.length ∧
      ∀ j ts, (ts ∈ out.getD j [] ↔
        (ts ∈ c ∧ lmod ts.hash newsize = j) ∨ ts ∈ bs.getD j []) := by
  intro c
  induction c with
  | nil => intro bs hlen; exact ⟨rfl, fun j ts => by simp⟩
  | cons p c ih =>
    intro bs hlen
    rw [List.foldl_cons]
    obtain ⟨ihlen, ihget⟩ := ih
      (bs.set (lmod p.hash newsize) (p :: bs.getD (lmod p.hash newsize) []))
      (by intro q; rw [List.length_set]; exact hlen q)
    refine ⟨ihlen.trans (by rw [List.length_set]), fun j ts => ?_⟩
    rw [ihget j ts]
    by_cases hj : lmod p.hash newsize = j
    · subst hj
      rw [getD_set_self _ _ _ (hlen p)]
      constructor
      · rintro (⟨hc, hl⟩ | h)
        · exact Or.inl ⟨List.mem_cons_of_mem _ hc, hl⟩
        · rcases List.mem_cons.mp h with rfl | h
          · exact Or.inl ⟨List.mem_cons_self _ _, rfl⟩
          · exact Or.inr h
      · rintro (⟨hc, hl⟩ | h)
        · rcases List.mem_cons.mp hc with rfl | hc
          · exact Or.inr (List.mem_cons_self _ _)
          · exact Or.inl ⟨hc, hl⟩
        · exact Or.inr (List.mem_cons_of_mem _ h)
    · rw [getD_set_ne _ _ _ _ hj]
      constructor
      · rintro (⟨hc, hl⟩ | h)
        · exact Or.inl ⟨List.mem_cons_of_mem _ hc, hl⟩
        · exact Or.inr h
      · rintro (⟨hc, hl⟩ | h)
        · rcases List.mem_cons.mp hc with rfl | hc
          · exact absurd hl hj
          · exact Or.inl ⟨hc, hl⟩
        · exact Or.inr h

/-- Effect of the `luaS_resize` rehash loop over the first `k` buckets:
lengths and overall membership are preserved, every string in an already
processed bucket sits at its new position, and every string either kept its
bucket or sits at its new position. -/
theorem sweep_spec (newsize : Nat) :
    ∀ (k : Nat) (bs : List (List TString)),
      k ≤ bs.length →
      (∀ p : TString, lmod p.hash newsize < bs.length) →
      letI out := (List.range k).foldl (resizeStep newsize) bs
      out.length = bs.length ∧
      (∀ ts, ts ∈ out.flatten ↔ ts ∈ bs.flatten) ∧
      (∀ j ts, ts ∈ out.getD j [] →
        (j < k → lmod ts.hash newsize = j) ∧
        (ts ∈ bs.getD j [] ∨ lmod ts.hash newsize = j)) := by
  intro k
  induction k with
  | zero =>
    intro bs hk hlen
    exact ⟨rfl, fun ts => Iff.rfl,
      fun j ts h => ⟨fun hc => absurd hc (by omega), Or.inl h⟩⟩
  | succ k ih =>
    intro bs hk hlen
    rw [List.range_succ, List.foldl_append, List.foldl_cons, List.foldl_nil]
    obtain ⟨ihlen, ihmem, ihplace⟩ := ih bs (by omega) hlen
    set mid := (List.range k).foldl (resizeStep newsize) bs with hmid
    have hkmid : k < mid.length := by rw [ihlen]; omega
    have hlenmid : ∀ p : TString, lmod p.hash newsize < mid.length := by
      intro p; rw [ihlen]; exact hlen p
    obtain ⟨flen, fget⟩ := foldl_ins_spec newsize (mid.getD k [])
      (mid.set k []) (by intro q; rw [List.length_set]; exact hlenmid q)
    rw [resizeStep]
    have houtlen : ((mid.getD k []).foldl
        (fun acc p =>
          acc.set (lmod p.hash newsize) (p :: acc.getD (lmod p.hash newsize) []))
        (mid.set k [])).length = bs.length :=
      flen.trans ((List.length_set _ _ _).trans ihlen)
    refine ⟨houtlen, fun ts => ?_, fun j ts hmem => ?_⟩
    · rw [mem_flatten_getD, ← ihmem ts, mem_flatten_getD]
      constructor
      · rintro ⟨j, hj, hts⟩
        rcases (fget j ts).mp hts with ⟨hc, _⟩ | hbase
        · exact ⟨k, hkmid, hc⟩
        · by_cases hjk : k = j
          · subst hjk
            rw [getD_set_self _ _ _ hkmid] at hbase
            simp at hbase
          · rw [getD_set_ne _ _ _ _ hjk] at hbase
            rw [houtlen, ← ihlen] at hj
            exact ⟨j, hj, hbase⟩
      · rintro ⟨j, hj, hts⟩
        by_cases hjk : k = j
        · subst hjk
          refine ⟨lmod ts.hash newsize, by rw [houtlen, ← ihlen]; exact hlenmid ts, ?_⟩
          exact (fget _ ts).mpr (Or.inl ⟨hts, rfl⟩)
        · refine ⟨j, by rw [houtlen, ← ihlen]; exact hj, ?_⟩
          exact (fget j ts).mpr (Or.inr (by rw [getD_set_ne _ _ _ _ hjk]; exact hts))
    · rcases (fget j ts).mp hmem with ⟨hc, hpos⟩ | hbase
      · exact ⟨fun _ => hpos, Or.inr hpos⟩
      · by_cases hjk : k = j
        · subst hjk
          rw [getD_set_self _ _ _ hkmid] at hbase
          simp at hbase
        · rw [getD_set_ne _ _ _ _ hjk] at hbase
          obtain ⟨hp1, hp2⟩ := ihplace j ts hbase
          exact ⟨fun hlt => hp1 (by omega), hp2⟩

/-- The `luaS_resize` preserves well-formedness and the set of interned strings,
and updates only the bucket vector and the size. -/
theorem luaS_resize_spec (g : GStr) (newsize : Nat) (hWF : WF g)
    (hpos : 0 < newsize) :
    WF (luaS_resize g newsize) ∧
    (∀ ts, ts ∈ tableMembers (luaS_resize g newsize).strt ↔
      ts ∈ tableMembers g.strt) ∧
    (luaS_resize g newsize).seed = g.seed ∧
    (luaS_resize g newsize).nextId = g.nextId ∧
    (luaS_resize g newsize).strt.size = newsize ∧
    (luaS_resize g newsize).strt.nuse = g.strt.nuse := by
  obtain ⟨hlen, hszpos, hplace, hhash, hfresh, huniq⟩ := hWF
  set old := g.strt.size with hold
  set grown := if g.strt.size < newsize
    then g.strt.hash ++ List.replicate (newsize - g.strt.size) []
    else g.strt.hash with hgrown
  set rehashed := (List.range g.strt.size).foldl (resizeStep newsize) grown
    with hrehashed
  set shrunk := if newsize < g.strt.size then rehashed.take newsize
    else rehashed with hshrunk
  have hres : luaS_resize g newsize =
      { g with strt := { hash := shrunk, nuse := g.strt.nuse, size := newsize } } :=
    rfl
  have hgrowlen : grown.length = max old newsize := by
    rw [hgrown]
    split
    · simp [hlen]; omega
    · rw [hlen]; omega
  have hmemgrown : ∀ ts : TString, ts ∈ grown.flatten ↔ ts ∈ g.strt.hash.flatten := by
    intro ts
    rw [hgrown]
    split
    · simp [List.flatten_append, List.mem_append]
    · exact Iff.rfl
  have hgetD_lo : ∀ j, j < old → grown.getD j [] = g.strt.hash.getD j [] := by
    intro j hj
    rw [hgrown]
    split
    · rw [List.getD_eq_getElem?_getD, List.getD_eq_getElem?_getD,
        List.getElem?_append, if_pos (by rw [hlen]; exact hj)]
    · rfl
  have hgetD_hi : ∀ j, old ≤ j → grown.getD j [] = [] := by
    intro j hj
    rw [hgrown]
    split
    · rw [List.getD_eq_getElem?_getD, List.getElem?_append,
        if_neg (by rw [hlen]; omega), List.getElem?_replicate]
      split <;> rfl
    · rw [List.getD_eq_getElem?_getD, List.getElem?_eq_none (by rw [hlen]; exact hj)]
      rfl
  have hlen2 : ∀ p : TString, lmod p.hash newsize < grown.length := by
    intro p
    rw [hgrowlen]
    exact lt_of_lt_of_le (lmod_lt _ _ hpos) (le_max_right _ _)
  obtain ⟨slen, smem, splace⟩ := sweep_spec newsize old grown
    (by rw [hgrowlen]; omega) hlen2
  have hreq : (List.range old).foldl (resizeStep newsize) grown = rehashed := rfl
  rw [hreq] at slen smem splace
  have hshrunklen : shrunk.length = newsize := by
    rw [hshrunk]
    split
    · rw [List.length_take, slen, hgrowlen]; omega
    · rw [slen, hgrowlen]; omega
  have hshrunk_getD : ∀ j, j < newsize → shrunk.getD j [] = rehashed.getD j [] := by
    intro j hj
    rw [hshrunk]
    split
    · rw [List.getD_eq_getElem?_getD, List.getD_eq_getElem?_getD,
        List.getElem?_take, if_pos hj]
    · rfl
  have hmemshrunk : ∀ ts : TString, ts ∈ shrunk.flatten ↔ ts ∈ rehashed.flatten := by
    intro ts
    rw [hshrunk]
    split
    · rename_i hns
      rw [mem_flatten_getD, mem_flatten_getD]
      constructor
      · rintro ⟨j, hj, hts⟩
        rw [List.length_take] at hj
        refine ⟨j, by omega, ?_⟩
        rw [List.getD_eq_getElem?_getD, List.getElem?_take,
          if_pos (show j < newsize by omega), ← List.getD_eq_getElem?_getD] at hts
        exact hts
      · rintro ⟨j, hj, hts⟩
        have hpl := splace j ts hts
        have hjlt : j < old := by rw [slen, hgrowlen] at hj; omega
        have hpos2 := hpl.1 hjlt
        have hjnew : j < newsize := by
          rw [← hpos2]
          exact lmod_lt _ _ hpos
        refine ⟨j, by rw [List.length_take]; rw [slen] at hj; omega, ?_⟩
        rw [List.getD_eq_getElem?_getD, List.getElem?_take, if_pos hjnew,
          ← List.getD_eq_getElem?_getD]
        exact hts
    · exact Iff.rfl
  have hmem : ∀ ts : TString, ts ∈ shrunk.flatten ↔ ts ∈ g.strt.hash.flatten := by
    intro ts
    rw [hmemshrunk, smem, hmemgrown]
  have hplace2 : ∀ i, i < newsize → ∀ ts ∈ shrunk.getD i [],
      lmod ts.hash newsize = i := by
    intro i hi ts hts
    rw [hshrunk_getD i hi] at hts
    obtain ⟨hp1, hp2⟩ := splace i ts hts
    rcases Nat.lt_or_ge i old with hiold | hiold
    · exact hp1 hiold
    · rcases hp2 with hbs | hp
      · rw [hgetD_hi i hiold] at hbs
        simp at hbs
      · exact hp
  rw [hres]
  refine ⟨⟨hshrunklen, hpos, hplace2, ?_, ?_, ?_⟩, hmem, rfl, rfl, rfl, rfl⟩
  · intro ts hts
    exact hhash ts ((hmem ts).mp hts)
  · intro ts hts
    exact hfresh ts ((hmem ts).mp hts)
  · intro a ha b hb
    exact huniq a ((hmem a).mp ha) b ((hmem b).mp hb)

/-- Unlinking from a chain only removes elements. -/
theorem removeFromChain_subset (ts : TString) :
    ∀ (l l' : List TString), removeFromChain ts l = some l' → ∀ x ∈ l', x ∈ l := by
  intro l
  induction l with
  | nil => intro l' h; simp [removeFromChain] at h
  | cons y rest ih =>
    intro l' h x hx
    rw [removeFromChain] at h
    by_cases hy : y = ts
    · rw [if_pos hy] at h
      injection h with h
      subst h
      exact List.mem_cons_of_mem _ hx
    · rw [if_neg hy] at h
      cases hrec : removeFromChain ts rest with
      | none => rw [hrec] at h; simp at h
      | some r =>
        rw [hrec] at h
        have h2 : y :: r = l' := by simpa using h
        subst h2
        rcases List.mem_cons.mp hx with rfl | hx
        · exact List.mem_cons_self _ _
        · exact List.mem_cons_of_mem _ (ih r hrec x hx)

/-- The `luaS_remove` preserves well-formedness. -/
theorem luaS_remove_spec (g : GStr) (ts : TString) (hWF : WF g) :
    ∀ g2, luaS_remove g ts = some g2 → WF g2 := by
  obtain ⟨hlen, hszpos, hplace, hhash, hfresh, huniq⟩ := hWF
  intro g2 hg2
  rw [luaS_remove] at hg2
  set b := lmod ts.hash g.strt.size with hb
  cases hrem : removeFromChain ts (g.strt.hash.getD b []) with
  | none => rw [hrem] at hg2; exact absurd hg2 (by simp)
  | some chain2 =>
    rw [hrem] at hg2
    injection hg2 with hg2
    subst hg2
    have hblt : b < g.strt.hash.length := by rw [hlen]; exact lmod_lt _ _ hszpos
    have hsub := removeFromChain_subset ts _ _ hrem
    have hmemsub : ∀ x : TString,
        x ∈ (g.strt.hash.set b chain2).flatten → x ∈ g.strt.hash.flatten := by
      intro x hx
      rw [mem_flatten_getD] at hx
      obtain ⟨j, hj, hxj⟩ := hx
      rw [List.length_set] at hj
      rw [mem_flatten_getD]
      by_cases hjb : b = j
      · subst hjb
        rw [getD_set_self _ _ _ hblt] at hxj
        exact ⟨b, hj, hsub x hxj⟩
      · rw [getD_set_ne _ _ _ _ hjb] at hxj
        exact ⟨j, hj, hxj⟩
    refine ⟨(List.length_set _ _ _).trans hlen, hszpos, ?_, ?_, ?_, ?_⟩
    · intro i hi x hx
      by_cases hib : b = i
      · subst hib
        rw [getD_set_self _ _ _ hblt] at hx
        exact hplace b hi x (hsub x hx)
      · rw [getD_set_ne _ _ _ _ hib] at hx
        exact hplace i hi x hx
    · intro x hx
      exact hhash x (hmemsub x hx)
    · intro x hx
      exact hfresh x (hmemsub x hx)
    · intro a ha b2 hb2
      exact huniq a (hmemsub a ha) b2 (hmemsub b2 hb2)

/-- The `internshrstr` preserves well-formedness and returns an interned object
with the requested bytes. -/
theorem internshrstr_spec (g : GStr) (str : List Nat) (hWF : WF g) :
    WF (internshrstr g str).1 ∧
    (internshrstr g str).2.bytes = str ∧
    (internshrstr g str).2 ∈ tableMembers (internshrstr g str).1.strt := by
  obtain ⟨hlen, hszpos, hplace, hhash, hfresh, huniq⟩ := hWF
  cases hfind : (g.strt.hash.getD (lmod (luaS_hash str g.seed) g.strt.size) []).find?
      (fun ts => ts.bytes == str) with
  | some ts =>
    have hres : internshrstr g str = (g, ts) := by
      simp only [internshrstr]
      rw [hfind]
    rw [hres]
    have hmemchain : ts ∈ g.strt.hash.getD (lmod (luaS_hash str g.seed) g.strt.size) [] :=
      List.mem_of_find?_eq_some hfind
    have hbytes : ts.bytes = str := by
      have := List.find?_some hfind
      simpa using this
    refine ⟨⟨hlen, hszpos, hplace, hhash, hfresh, huniq⟩, hbytes, ?_⟩
    rw [tableMembers, mem_flatten_getD]
    exact ⟨lmod (luaS_hash str g.seed) g.strt.size,
      by rw [hlen]; exact lmod_lt _ _ hszpos, hmemchain⟩
  | none =>
    -- abbreviations for the inserted-object state
    set g1 := if g.strt.nuse ≥ g.strt.size ∧ g.strt.size ≤ MAX_INT / 2
      then luaS_resize g (g.strt.size * 2) else g with hg1
    set tsn : TString :=
      { id := g1.nextId, bytes := str, hash := luaS_hash str g.seed } with htsn
    set b := lmod (luaS_hash str g.seed) g1.strt.size with hbdef
    have hres : internshrstr g str =
        ({ g1 with
            strt := { hash := g1.strt.hash.set b (tsn :: g1.strt.hash.getD b []),
                      nuse := g1.strt.nuse + 1, size := g1.strt.size },
            nextId := g1.nextId + 1 }, tsn) := by
      simp only [internshrstr]
      rw [hfind]
    -- facts about g1
    have hg1facts : WF g1 ∧
        (∀ t : TString, t ∈ tableMembers g1.strt ↔ t ∈ tableMembers g.strt) ∧
        g1.seed = g.seed ∧ g1.nextId = g.nextId := by
      rw [hg1]
      split
      · have hr := luaS_resize_spec g (g.strt.size * 2)
          ⟨hlen, hszpos, hplace, hhash, hfresh, huniq⟩ (by omega)
        exact ⟨hr.1, hr.2.1, hr.2.2.1, hr.2.2.2.1⟩
      · exact ⟨⟨hlen, hszpos, hplace, hhash, hfresh, huniq⟩,
          fun t => Iff.rfl, rfl, rfl⟩
    obtain ⟨⟨hlen1, hpos1, hplace1, hhash1, hfresh1, huniq1⟩, hmem1, hseed1, hnext1⟩ :=
      hg1facts
    have hblt : b < g1.strt.hash.length := by
      rw [hlen1]
      exact lmod_lt _ _ hpos1
    -- no string with these bytes is interned
    have hnodup : ∀ x : TString, x ∈ tableMembers g1.strt → x.bytes ≠ str := by
      intro x hx hxb
      have hxg : x ∈ tableMembers g.strt := (hmem1 x).mp hx
      have hxh : x.hash = luaS_hash str g.seed := by
        rw [hhash x hxg, hxb]
      obtain ⟨j, hj, hxj⟩ := (mem_flatten_getD _ _).mp hxg
      have hjp : lmod x.hash g.strt.size = j := hplace j (by rw [← hlen]; exact hj) x hxj
      have : x ∈ g.strt.hash.getD (lmod (luaS_hash str g.seed) g.strt.size) [] := by
        rw [← hxh, hjp]
        exact hxj
      have hfalse := List.find?_eq_none.mp hfind x this
      simp [hxb] at hfalse
    -- membership in the final table
    have hmem2 : ∀ x : TString,
        x ∈ (g1.strt.hash.set b (tsn :: g1.strt.hash.getD b [])).flatten ↔
        x = tsn ∨ x ∈ tableMembers g1.strt := by
      intro x
      rw [mem_flatten_getD]
      constructor
      · rintro ⟨j, hj, hxj⟩
        rw [List.length_set] at hj
        by_cases hjb : b = j
        · subst hjb
          rw [getD_set_self _ _ _ hblt] at hxj
          rcases List.mem_cons.mp hxj with rfl | hxj
          · exact Or.inl rfl
          · exact Or.inr ((mem_flatten_getD _ _).mpr ⟨b, hj, hxj⟩)
        · rw [getD_set_ne _ _ _ _ hjb] at hxj
          exact Or.inr ((mem_flatten_getD _ _).mpr ⟨j, hj, hxj⟩)
      · rintro (rfl | hx)
        · refine ⟨b, by rw [List.length_set]; exact hblt, ?_⟩
          rw [getD_set_self _ _ _ hblt]
          exact List.mem_cons_self _ _
        · obtain ⟨j, hj, hxj⟩ := (mem_flatten_getD _ _).mp hx
          by_cases hjb : b = j
          · subst hjb
            refine ⟨b, by rw [List.length_set]; exact hj, ?_⟩
            rw [getD_set_self _ _ _ hblt]
            exact List.mem_cons_of_mem _ hxj
          · refine ⟨j, by rw [List.length_set]; exact hj, ?_⟩
            rw [getD_set_ne _ _ _ _ hjb]
            exact hxj
    rw [hres]
    refine ⟨⟨(List.length_set _ _ _).trans hlen1, hpos1, ?_, ?_, ?_, ?_⟩, rfl, ?_⟩
    · -- bucket placement
      intro i hi x hx
      by_cases hib : b = i
      · subst hib
        rw [getD_set_self _ _ _ hblt] at hx
        rcases List.mem_cons.mp hx with rfl | hx
        · rw [htsn]
        · exact hplace1 b hi x hx
      · rw [getD_set_ne _ _ _ _ hib] at hx
        exact hplace1 i hi x hx
    · -- hash correctness
      intro x hx
      rcases (hmem2 x).mp hx with rfl | hx
      · show tsn.hash = luaS_hash tsn.bytes g1.seed
        simp [htsn, hseed1]
      · exact hhash1 x hx
    · -- freshness
      intro x hx
      rcases (hmem2 x).mp hx with rfl | hx
      · simp [htsn]
      · exact Nat.lt_succ_of_lt (hfresh1 x hx)
    · -- uniqueness
      intro a ha b2 hb2 hab
      rcases (hmem2 a).mp ha with rfl | ha <;> rcases (hmem2 b2).mp hb2 with rfl | hb2
      · rfl
      · exact absurd (by rw [← hab, htsn]) (hnodup b2 hb2)
      · exact absurd (by rw [hab, htsn]) (hnodup a ha)
      · exact huniq1 a ha b2 hb2 hab
    · -- the returned string is interned
      exact (hmem2 tsn).mpr (Or.inl rfl)

/-- C1: in every well-formed state, two short strings interned in the string
table are the same object exactly when their byte contents are equal, and
this invariant (together with the rest of well-formedness) is preserved by
`luaS_resize`, by `luaS_remove`, and by `internshrstr` — which moreover
returns an interned object carrying exactly the requested bytes. -/
theorem c1_string_table_uniqueness (g : GStr) (hWF : WF g) :
    (∀ a ∈ tableMembers g.strt, ∀ b ∈ tableMembers g.strt,
      (a = b ↔ a.bytes = b.bytes)) ∧
    (∀ n, 0 < n → WF (luaS_resize g n)) ∧
    (∀ ts g2, luaS_remove g ts = some g2 → WF g2) ∧
    (∀ str, WF (internshrstr g str).1 ∧
      (internshrstr g str).2.bytes = str ∧
      (internshrstr g str).2 ∈ tableMembers (internshrstr g str).1.strt) :=
  ⟨fun a ha b hb =>
    ⟨fun h => by rw [h], fun h => hWF.2.2.2.2.2 a ha b hb h⟩,
   fun n hn => (luaS_resize_spec g n hWF hn).1,
   fun ts g2 h => luaS_remove_spec g ts hWF g2 h,
   fun str => internshrstr_spec g str hWF⟩

/-- C1 witness: a concrete well-formed one-bucket table; resizing it to two
buckets and interning a string both preserve well-formedness. -/
theorem c1_string_table_uniqueness_witness :
    WF ⟨⟨[[]], 0, 1⟩, 7, 0⟩ ∧
    WF (luaS_resize ⟨⟨[[]], 0, 1⟩, 7, 0⟩ 2) ∧
    WF (internshrstr ⟨⟨[[]], 0, 1⟩, 7, 0⟩ [1, 2]).1 :=
  ⟨by unfold WF tableMembers; decide,
   (c1_string_table_uniqueness _ (by unfold WF tableMembers; decide)).2.1 2
     (by decide),
   ((c1_string_table_uniqueness _ (by unfold WF tableMembers; decide)).2.2.2
     [1, 2]).1⟩

end LuaCore

